import Mathlib

/-!
# strrand: random strings over a charset

A shallow embedding of `strrand.go`.

* A Go `string` (and a `[]byte`) is the list of its bytes, each a natural
  number below 256.  String literals of the source are turned into their
  UTF-8 bytes by `lit`.
* A `rune` is a natural number (the code point).
* Unsigned 32-bit values are natural numbers; the one conversion of the
  source that can wrap, `uint32(len(charsetRune))`, is reduced `% 2 ^ 32`.
  `int` is 64 bits wide, so `int(length)` of a `uint32` is its value.
* `crypto/rand.Read` is the only source of effects.  The k-th call to it is
  answered by `e k` of an entropy stream `e`: either an error or the bytes
  it puts into the buffer.  Every function that can read carries the number
  of calls made so far, and returns it with its result.
* A panic is the `error` side of `Except Panic`.
-/

set_option autoImplicit false

namespace Strrand

/-! ## Values standing for Go's library types -/

/-- The value a Go `error` carries, as far as this program looks at it. -/
abbrev GoError := String

/-- The ways a call can stop without returning. -/
inductive Panic where
  /-- The panic of `bytes`: `panic(err)` with the error of `rand.Read`. -/
  | entropy (err : GoError)
  /-- The run-time panic of `%` with a zero divisor. -/
  | divideByZero
  /-- The run-time panic of an index outside a slice. -/
  | indexOutOfRange
  /-- The panic of `bytes.Buffer.Grow` on a negative count. -/
  | negativeCount
  deriving DecidableEq, Repr

/-- The entropy source: what the k-th call to `rand.Read` answers. -/
abbrev Entropy := Nat → Except GoError (List Nat)

/-! ## UTF-8 (`unicode/utf8`) -/

/-- The rune `utf8.RuneError`, U+FFFD. -/
def RuneError : Nat := 0xFFFD

/-- The bound `utf8.RuneSelf`: bytes below it are their own rune. -/
def RuneSelf : Nat := 0x80

/-- The largest code point, `utf8.MaxRune`. -/
def MaxRune : Nat := 0x10FFFF

/-- The first surrogate code point. -/
def surrogateMin : Nat := 0xD800

/-- The last surrogate code point. -/
def surrogateMax : Nat := 0xDFFF

/-- The function `utf8.AppendRune(p, r)`: `p` followed by the UTF-8 encoding of
`r`, a rune that is not a code point being written as `RuneError`. -/
def AppendRune (p : List Nat) (r : Nat) : List Nat :=
  if r ≤ 0x7F then p ++ [r]
  else if r ≤ 0x7FF then p ++ [0xC0 + r / 64, 0x80 + r % 64]
  else if MaxRune < r ∨ (surrogateMin ≤ r ∧ r ≤ surrogateMax) then p ++ [0xEF, 0xBF, 0xBD]
  else if r ≤ 0xFFFF then p ++ [0xE0 + r / 4096, 0x80 + r / 64 % 64, 0x80 + r % 64]
  else p ++ [0xF0 + r / 262144, 0x80 + r / 4096 % 64, 0x80 + r / 64 % 64, 0x80 + r % 64]

/-- The table `first` and `acceptRanges` of `unicode/utf8` for a leading byte at
or above `RuneSelf`: the length of the sequence it starts and the range the
second byte must lie in, or `none` for a byte that starts no sequence. -/
def first (s0 : Nat) : Option (Nat × Nat × Nat) :=
  if 0xC2 ≤ s0 ∧ s0 ≤ 0xDF then some (2, 0x80, 0xBF)
  else if s0 = 0xE0 then some (3, 0xA0, 0xBF)
  else if 0xE1 ≤ s0 ∧ s0 ≤ 0xEC then some (3, 0x80, 0xBF)
  else if s0 = 0xED then some (3, 0x80, 0x9F)
  else if 0xEE ≤ s0 ∧ s0 ≤ 0xEF then some (3, 0x80, 0xBF)
  else if s0 = 0xF0 then some (4, 0x90, 0xBF)
  else if 0xF1 ≤ s0 ∧ s0 ≤ 0xF3 then some (4, 0x80, 0xBF)
  else if s0 = 0xF4 then some (4, 0x80, 0x8F)
  else none

/-- The function `utf8.DecodeRuneInString(s)`: the first rune of `s` and the
number of bytes it takes; `(RuneError, 1)` where `s` does not start with a
well-formed sequence, `(RuneError, 0)` for the empty string.  The masks
`s0 & 0x1F`, `s0 & 0x0F`, `s0 & 0x07`, `s & 0x3F` are written `% 32`, `% 16`,
`% 8`, `% 64`, and the shifts as products. -/
def DecodeRuneInString (s : List Nat) : Nat × Nat :=
  match s with
  | [] => (RuneError, 0)
  | s0 :: t =>
    if s0 < RuneSelf then (s0, 1)
    else
      match first s0 with
      | none => (RuneError, 1)
      | some (sz, lo, hi) =>
        if s.length < sz then (RuneError, 1)
        else
          match t with
          | [] => (RuneError, 1)
          | s1 :: t1 =>
            if s1 < lo ∨ hi < s1 then (RuneError, 1)
            else if sz ≤ 2 then (s0 % 32 * 64 + s1 % 64, 2)
            else
              match t1 with
              | [] => (RuneError, 1)
              | s2 :: t2 =>
                if s2 < 0x80 ∨ 0xBF < s2 then (RuneError, 1)
                else if sz ≤ 3 then (s0 % 16 * 4096 + s1 % 64 * 64 + s2 % 64, 3)
                else
                  match t2 with
                  | [] => (RuneError, 1)
                  | s3 :: _ =>
                    if s3 < 0x80 ∨ 0xBF < s3 then (RuneError, 1)
                    else (s0 % 8 * 262144 + s1 % 64 * 4096 + s2 % 64 * 64 + s3 % 64, 4)

/-- The loop of the conversion `[]rune(s)`: decode a rune, step over its bytes,
until the string is used up.  Every step takes at least one byte, so `fuel`
at least the length of `s` decodes all of it. -/
def runesFrom : Nat → List Nat → List Nat
  | 0, _ => []
  | fuel + 1, s =>
    match s with
    | [] => []
    | _ :: _ => (DecodeRuneInString s).1 :: runesFrom fuel (s.drop (DecodeRuneInString s).2)

/-- The conversion `[]rune(s)`: the code points of `s`, with `RuneError` for
every byte that is not part of a well-formed sequence. -/
def runes (s : List Nat) : List Nat :=
  runesFrom s.length s

/-- The function `utf8.RuneCountInString(s)`: the number of code points of `s`. -/
def RuneCountInString (s : List Nat) : Nat :=
  (runes s).length

/-- The bytes of a string literal of the source: the UTF-8 encoding of its
characters. -/
def lit (s : String) : List Nat :=
  s.data.foldl (fun p c => AppendRune p c.toNat) []

/-! ## `bytes.Buffer` and `encoding/binary` -/

/-- The conversion `int(length)` of a `uint32`, `int` being 64 bits wide. -/
def int (length : Nat) : Int :=
  Int.ofNat length

/-- The method `buffer.Grow(n)`: it only reserves room, and panics when `n` is
negative. -/
def Grow (n : Int) : Except Panic Unit :=
  if n < 0 then .error .negativeCount else .ok ()

/-- The method `buffer.WriteRune(r)` on the contents `buffer`: one byte for a
rune below `RuneSelf`, the UTF-8 encoding of the rune otherwise. -/
def WriteRune (buffer : List Nat) (r : Nat) : List Nat :=
  if r < RuneSelf then buffer ++ [r % 256]
  else AppendRune buffer r

/-- The function `binary.BigEndian.Uint32(b)`:
`b[3] | b[2]<<8 | b[1]<<16 | b[0]<<24`, a panic when `b` has fewer than 4
bytes. -/
def Uint32 (b : List Nat) : Except Panic Nat :=
  match b with
  | b0 :: b1 :: b2 :: b3 :: _ => .ok ((b3 + b2 * 2 ^ 8 + b1 * 2 ^ 16 + b0 * 2 ^ 24) % 2 ^ 32)
  | _ => .error .indexOutOfRange

/-! ## The charsets (`strrand.go`, lines 9 to 38) -/

/-- A binary character set (0 and 1). -/
def BinaryCharset : List Nat := lit "01"

/-- An octal character set (0-7). -/
def OctalCharset : List Nat := lit "01234567"

/-- A decimal character set (0-9). -/
def DecimalCharset : List Nat := lit "0123456789"

/-- A hexadecimal character set (0-9, a-f). -/
def HexadecimalCharset : List Nat := lit "0123456789abcdef"

/-- Uppercase alphabetic characters (A-Z). -/
def UppercaseCharset : List Nat := lit "ABCDEFGHIJKLMNOPQRSTUVWXYZ"

/-- Lowercase alphabetic characters (a-z). -/
def LowercaseCharset : List Nat := lit "abcdefghijklmnopqrstuvwxyz"

/-- Special characters; the braces, the apostrophe and the backquote of the
source literal are written as escapes. -/
def SpecialCharset : List Nat := lit "!@#$%^&*()-_=+[]\x7b\x7d|;:\x27,.<>?/\x60~"

/-- Uppercase and lowercase alphabetic characters. -/
def AlphabetCharset : List Nat := UppercaseCharset ++ LowercaseCharset

/-- A Base62 character set (0-9, A-Z, a-z). -/
def Base62Charset : List Nat := DecimalCharset ++ AlphabetCharset

/-- A Base64 character set (0-9, A-Z, a-z, +, /). -/
def Base64Charset : List Nat := Base62Charset ++ lit "+/"

/-- The default character set (Base62 and the special characters). -/
def DefaultCharset : List Nat := Base62Charset ++ SpecialCharset

/-! ## The generator (`strrand.go`, lines 95 to 129) -/

/-- The function `bytes(length)` as the `k`-th call to `rand.Read`: a slice of
`length` bytes filled by the entropy source, or the panic with its error.
Returns the number of calls made as well. -/
def bytes (length : Nat) (e : Entropy) (k : Nat) : Except Panic (List Nat) × Nat :=
  match e k with
  | .error err => (.error (.entropy err), k + 1)
  | .ok d => (.ok ((List.range length).map (fun i => d.getD i 0 % 256)), k + 1)

/-- The body of the loop `for range length` of `random`, run `n` times on the
buffer contents `buffer` after `k` calls to `rand.Read`: draw 4 bytes, reduce
them modulo the charset length, write the rune at that index. -/
def randomLoop (charsetRune : List Nat) (charsetRuneLength : Nat) (e : Entropy) :
    Nat → List Nat → Nat → Except Panic (List Nat) × Nat
  | 0, buffer, k => (.ok buffer, k)
  | n + 1, buffer, k =>
    match bytes 4 e k with
    | (.error p, k1) => (.error p, k1)
    | (.ok b, k1) =>
      match Uint32 b with
      | .error p => (.error p, k1)
      | .ok w =>
        if charsetRuneLength = 0 then (.error .divideByZero, k1)
        else
          match charsetRune[w % charsetRuneLength]? with
          | none => (.error .indexOutOfRange, k1)
          | some r => randomLoop charsetRune charsetRuneLength e n (WriteRune buffer r) k1

/-- The function `random(length, charset)` on the entropy stream `e`: the
string it returns or the panic it stops with, and the number of calls to
`rand.Read` it made. -/
def random (length : Nat) (charset : List Nat) (e : Entropy) : Except Panic (List Nat) × Nat :=
  match Grow (int length) with
  | .error p => (.error p, 0)
  | .ok _ => randomLoop (runes charset) ((runes charset).length % 2 ^ 32) e length [] 0

/-- Binary: a random string over the binary charset. -/
def Binary (length : Nat) (e : Entropy) : Except Panic (List Nat) × Nat :=
  random length BinaryCharset e

/-- Octal: a random string over the octal charset. -/
def Octal (length : Nat) (e : Entropy) : Except Panic (List Nat) × Nat :=
  random length OctalCharset e

/-- Decimal: a random string over the decimal charset. -/
def Decimal (length : Nat) (e : Entropy) : Except Panic (List Nat) × Nat :=
  random length DecimalCharset e

/-- Hexadecimal: a random string over the hexadecimal charset. -/
def Hexadecimal (length : Nat) (e : Entropy) : Except Panic (List Nat) × Nat :=
  random length HexadecimalCharset e

/-- CapitalLetters: a random string of uppercase letters. -/
def CapitalLetters (length : Nat) (e : Entropy) : Except Panic (List Nat) × Nat :=
  random length UppercaseCharset e

/-- LowercaseLetters: a random string of lowercase letters. -/
def LowercaseLetters (length : Nat) (e : Entropy) : Except Panic (List Nat) × Nat :=
  random length LowercaseCharset e

/-- SpecialLetters: a random string of special characters. -/
def SpecialLetters (length : Nat) (e : Entropy) : Except Panic (List Nat) × Nat :=
  random length SpecialCharset e

/-- Base62: a random string over the base62 charset. -/
def Base62 (length : Nat) (e : Entropy) : Except Panic (List Nat) × Nat :=
  random length Base62Charset e

/-- Base64: a random string over the base64 charset. -/
def Base64 (length : Nat) (e : Entropy) : Except Panic (List Nat) × Nat :=
  random length Base64Charset e

/-- Letters: a random string of uppercase and lowercase letters. -/
def Letters (length : Nat) (e : Entropy) : Except Panic (List Nat) × Nat :=
  random length AlphabetCharset e

/-- DefaultString: a random string over the default charset. -/
def DefaultString (length : Nat) (e : Entropy) : Except Panic (List Nat) × Nat :=
  random length DefaultCharset e

/-- The function `String(length, customCharset...)`: the variadic argument is
the list `customCharset`. -/
def String (length : Nat) (customCharset : List (List Nat)) (e : Entropy) :
    Except Panic (List Nat) × Nat :=
  match customCharset with
  | [] => DefaultString length e
  | c :: _ => random length c e

/-! ## Auxiliary notions for the statements -/

/-- A rune that is a Unicode scalar value. -/
def ValidRune (r : Nat) : Prop :=
  r < surrogateMin ∨ (surrogateMax < r ∧ r ≤ MaxRune)

/-- The UTF-8 encoding of a sequence of runes, one after the other. -/
def encodeRunes : List Nat → List Nat
  | [] => []
  | r :: rs => AppendRune [] r ++ encodeRunes rs

/-- The 32-bit word `binary.BigEndian.Uint32` reads from the buffer that
`rand.Read` filled from the answer `d`. -/
def drawn (d : List Nat) : Nat :=
  (d.getD 3 0 % 256 + d.getD 2 0 % 256 * 2 ^ 8 + d.getD 1 0 % 256 * 2 ^ 16
    + d.getD 0 0 % 256 * 2 ^ 24) % 2 ^ 32

/-- The number of the `2 ^ 32` values `w` of a 32-bit draw that the reduction
`w % N` of `random` sends to the index `i`. -/
def preimages (N i : Nat) : Nat :=
  Nat.count (fun w => w % N = i) (2 ^ 32)

/-- An entropy source that never fails and answers the k-th call with the
bytes `0, 0, 0, k`. -/
def counting : Entropy :=
  fun k => .ok [0, 0, 0, k]

/-- An entropy source that never fails and answers every call with zeros. -/
def zeros : Entropy :=
  fun _ => .ok [0, 0, 0, 0]

/-- An entropy source that answers like `counting`, except that its call
number `j` fails with the error `err`. -/
def failingAt (j : Nat) (err : GoError) : Entropy :=
  fun k => if k = j then .error err else .ok [0, 0, 0, k]

/-- The named generators of the package, each with the charset its
documentation names. -/
def named : List ((Nat → Entropy → Except Panic (List Nat) × Nat) × List Nat) :=
  [(Binary, BinaryCharset), (Octal, OctalCharset), (Decimal, DecimalCharset),
    (Hexadecimal, HexadecimalCharset), (CapitalLetters, UppercaseCharset),
    (LowercaseLetters, LowercaseCharset), (SpecialLetters, SpecialCharset),
    (Base62, Base62Charset), (Base64, Base64Charset), (Letters, AlphabetCharset),
    (DefaultString, DefaultCharset)]

/-- The index the specification gives for a draw of four bytes `b` and a
charset of `N` code points: `(b0*2^24 + b1*2^16 + b2*2^8 + b3) mod N`. -/
def specIndex (N : Nat) (b : List Nat) : Nat :=
  (b.getD 0 0 * 2 ^ 24 + b.getD 1 0 * 2 ^ 16 + b.getD 2 0 * 2 ^ 8 + b.getD 3 0) % N

/-- The code points the specification gives for the code points `c` of a
charset and a sequence of draws: the k-th is `c[specIndex]` of the k-th
draw. -/
def specRunes (c : List Nat) (draws : List (List Nat)) : List Nat :=
  draws.map (fun b => c.getD (specIndex c.length b) 0)

/-- A charset of `2 ^ 32 + 1` code points: one `a`, then `2 ^ 32` times `b`. -/
def bigCharset : List Nat :=
  97 :: List.replicate (2 ^ 32) 98

/-- An entropy source that answers every call with the bytes `0, 0, 0, 1`. -/
def ones : Entropy :=
  fun _ => .ok [0, 0, 0, 1]

/-- The entropy source that answers its first calls with the draws of a list,
in order, and fails afterwards. -/
def ofDraws (draws : List (List Nat)) : Entropy :=
  fun k => match draws[k]? with
    | some b => .ok b
    | none => .error "no more draws"

/-- The relative bias between the indices `i` and `j` of a charset of `N` code
points under uniform draws: the difference of their numbers of draws (so of
their probabilities), relative to that of `j`. -/
def relativeBias (N i j : Nat) : ℚ :=
  |(preimages N i : ℚ) - (preimages N j : ℚ)| / (preimages N j : ℚ)

/-- The four bytes of the 32-bit value `w`, most significant first. -/
def wordBytes (w : Nat) : List Nat :=
  [w / 2 ^ 24 % 256, w / 2 ^ 16 % 256, w / 2 ^ 8 % 256, w % 256]

/-- An entropy source that never fails and answers every call with the bytes
`d`. -/
def always (d : List Nat) : Entropy :=
  fun _ => .ok d

/-- The number of the `2 ^ 32` values `w` of a 32-bit draw on which the
generator `g`, called with the length 1 on an entropy source that answers
with the four bytes of `w`, returns the string of the one code point `c`. -/
def drawsWriting (g : Nat → Entropy → Except Panic (List Nat) × Nat) (c : Nat) : Nat :=
  Nat.count (fun w => (g 1 (always (wordBytes w))).1.toOption.map runes = some [c]) (2 ^ 32)

/-- The entropy source `e` after its first `m` calls. -/
def after (e : Entropy) (m : Nat) : Entropy :=
  fun k => e (m + k)

/-! ## UTF-8: decoding what was encoded -/

theorem AppendRune_eq_append (p : List Nat) (r : Nat) :
    AppendRune p r = p ++ AppendRune [] r := by
  unfold AppendRune
  split_ifs <;> simp

theorem WriteRune_eq_append (buffer : List Nat) (r : Nat) :
    WriteRune buffer r = buffer ++ AppendRune [] r := by
  unfold WriteRune
  split_ifs with h
  · have h1 : r ≤ 0x7F := by simp only [RuneSelf] at h; omega
    have h2 : r % 256 = r := by omega
    simp [AppendRune, h1, h2]
  · exact AppendRune_eq_append buffer r

theorem AppendRune_length_pos (r : Nat) : 0 < (AppendRune [] r).length := by
  unfold AppendRune
  split_ifs <;> simp

theorem DecodeRuneInString_AppendRune (r : Nat) (h : ValidRune r) (rest : List Nat) :
    DecodeRuneInString (AppendRune [] r ++ rest) = (r, (AppendRune [] r).length) := by
  simp only [ValidRune, surrogateMin, surrogateMax, MaxRune] at h
  unfold AppendRune
  simp only [surrogateMin, surrogateMax, MaxRune]
  split_ifs with h1 h2 h3 h4
  · simp [DecodeRuneInString, RuneSelf]; omega
  · have hf : first (0xC0 + r / 64) = some (2, 0x80, 0xBF) := by
      unfold first
      rw [if_pos (by omega)]
    simp only [DecodeRuneInString, List.cons_append, List.nil_append, hf, RuneSelf]
    rw [if_neg (by omega), if_neg (by simp), if_neg (by omega), if_pos (by omega)]
    simp only [List.length_cons, List.length_nil, Prod.mk.injEq, and_true]
    omega
  · omega
  · have hf : ∃ lo hi, first (0xE0 + r / 4096) = some (3, lo, hi) ∧ lo ≤ 0x80 + r / 64 % 64
        ∧ 0x80 + r / 64 % 64 ≤ hi := by
      unfold first
      split_ifs <;> first | omega | (refine ⟨_, _, rfl, ?_, ?_⟩ <;> omega)
    obtain ⟨lo, hi, hf, hlo, hhi⟩ := hf
    simp only [DecodeRuneInString, List.cons_append, List.nil_append, hf, RuneSelf]
    rw [if_neg (by omega), if_neg (by simp), if_neg (by omega), if_neg (by omega),
      if_neg (by omega), if_pos (by omega)]
    simp only [List.length_cons, List.length_nil, Prod.mk.injEq, and_true]
    omega
  · have hf : ∃ lo hi, first (0xF0 + r / 262144) = some (4, lo, hi) ∧ lo ≤ 0x80 + r / 4096 % 64
        ∧ 0x80 + r / 4096 % 64 ≤ hi := by
      have hq : r / 262144 = 0 ∨ r / 262144 = 1 ∨ r / 262144 = 2 ∨ r / 262144 = 3
          ∨ r / 262144 = 4 := by omega
      rcases hq with hq | hq | hq | hq | hq <;> rw [hq] <;>
        first
        | exact ⟨0x90, 0xBF, rfl, by omega, by omega⟩
        | exact ⟨0x80, 0xBF, rfl, by omega, by omega⟩
        | exact ⟨0x80, 0x8F, rfl, by omega, by omega⟩
    obtain ⟨lo, hi, hf, hlo, hhi⟩ := hf
    simp only [DecodeRuneInString, List.cons_append, List.nil_append, hf, RuneSelf]
    rw [if_neg (by omega), if_neg (by simp), if_neg (by omega), if_neg (by omega),
      if_neg (by omega), if_neg (by omega), if_neg (by omega)]
    simp only [List.length_cons, List.length_nil, Prod.mk.injEq, and_true]
    omega

theorem first_spec {s0 sz lo hi : Nat} (h : first s0 = some (sz, lo, hi)) :
    (sz = 2 ∧ 0xC2 ≤ s0 ∧ s0 ≤ 0xDF ∧ lo = 0x80 ∧ hi = 0xBF) ∨
    (sz = 3 ∧ s0 = 0xE0 ∧ lo = 0xA0 ∧ hi = 0xBF) ∨
    (sz = 3 ∧ 0xE1 ≤ s0 ∧ s0 ≤ 0xEF ∧ s0 ≠ 0xED ∧ lo = 0x80 ∧ hi = 0xBF) ∨
    (sz = 3 ∧ s0 = 0xED ∧ lo = 0x80 ∧ hi = 0x9F) ∨
    (sz = 4 ∧ s0 = 0xF0 ∧ lo = 0x90 ∧ hi = 0xBF) ∨
    (sz = 4 ∧ 0xF1 ≤ s0 ∧ s0 ≤ 0xF3 ∧ lo = 0x80 ∧ hi = 0xBF) ∨
    (sz = 4 ∧ s0 = 0xF4 ∧ lo = 0x80 ∧ hi = 0x8F) := by
  unfold first at h
  by_cases c1 : 0xC2 ≤ s0 ∧ s0 ≤ 0xDF
  · rw [if_pos c1] at h; simp only [Option.some.injEq, Prod.mk.injEq] at h
    obtain ⟨rfl, rfl, rfl⟩ := h
    simp
    try omega
  rw [if_neg c1] at h
  by_cases c2 : s0 = 0xE0
  · rw [if_pos c2] at h; simp only [Option.some.injEq, Prod.mk.injEq] at h
    obtain ⟨rfl, rfl, rfl⟩ := h
    simp
    try omega
  rw [if_neg c2] at h
  by_cases c3 : 0xE1 ≤ s0 ∧ s0 ≤ 0xEC
  · rw [if_pos c3] at h; simp only [Option.some.injEq, Prod.mk.injEq] at h
    obtain ⟨rfl, rfl, rfl⟩ := h
    simp
    try omega
  rw [if_neg c3] at h
  by_cases c4 : s0 = 0xED
  · rw [if_pos c4] at h; simp only [Option.some.injEq, Prod.mk.injEq] at h
    obtain ⟨rfl, rfl, rfl⟩ := h
    simp
    try omega
  rw [if_neg c4] at h
  by_cases c5 : 0xEE ≤ s0 ∧ s0 ≤ 0xEF
  · rw [if_pos c5] at h; simp only [Option.some.injEq, Prod.mk.injEq] at h
    obtain ⟨rfl, rfl, rfl⟩ := h
    simp
    try omega
  rw [if_neg c5] at h
  by_cases c6 : s0 = 0xF0
  · rw [if_pos c6] at h; simp only [Option.some.injEq, Prod.mk.injEq] at h
    obtain ⟨rfl, rfl, rfl⟩ := h
    simp
    try omega
  rw [if_neg c6] at h
  by_cases c7 : 0xF1 ≤ s0 ∧ s0 ≤ 0xF3
  · rw [if_pos c7] at h; simp only [Option.some.injEq, Prod.mk.injEq] at h
    obtain ⟨rfl, rfl, rfl⟩ := h
    simp
    try omega
  rw [if_neg c7] at h
  by_cases c8 : s0 = 0xF4
  · rw [if_pos c8] at h; simp only [Option.some.injEq, Prod.mk.injEq] at h
    obtain ⟨rfl, rfl, rfl⟩ := h
    simp
    try omega
  rw [if_neg c8] at h
  exact absurd h (by simp)

theorem ValidRune_RuneError : ValidRune RuneError := by
  simp [ValidRune, RuneError, surrogateMin, surrogateMax, MaxRune]

theorem DecodeRuneInString_spec (s0 : Nat) (t : List Nat) :
    ValidRune (DecodeRuneInString (s0 :: t)).1 ∧ 1 ≤ (DecodeRuneInString (s0 :: t)).2 ∧
      (DecodeRuneInString (s0 :: t)).2 ≤ (s0 :: t).length := by
  unfold DecodeRuneInString
  by_cases h0 : s0 < RuneSelf
  · simp only [h0, if_true, List.length_cons]
    simp only [RuneSelf] at h0
    simp only [ValidRune, surrogateMin, surrogateMax, MaxRune]
    omega
  · simp only [h0, if_false]
    cases hf : first s0 with
    | none => simp [ValidRune_RuneError]
    | some x =>
      obtain ⟨sz, lo, hi⟩ := x
      have hs := first_spec hf
      simp only [RuneSelf] at h0
      clear hf
      rcases hs with ⟨rfl, h1, h2, rfl, rfl⟩ | ⟨rfl, rfl, rfl, rfl⟩ | ⟨rfl, h1, h2, h3, rfl, rfl⟩ |
        ⟨rfl, rfl, rfl, rfl⟩ | ⟨rfl, rfl, rfl, rfl⟩ | ⟨rfl, h1, h2, rfl, rfl⟩ |
        ⟨rfl, rfl, rfl, rfl⟩ <;>
        rcases t with _ | ⟨s1, _ | ⟨s2, _ | ⟨s3, t3⟩⟩⟩ <;>
        simp only [List.length_cons, List.length_nil] <;>
        split_ifs <;>
        simp only [ValidRune, RuneError, surrogateMin, surrogateMax, MaxRune] <;>
        omega

theorem runesFrom_fuel (f1 : Nat) : ∀ (f2 : Nat) (s : List Nat), s.length ≤ f1 → s.length ≤ f2 →
    runesFrom f1 s = runesFrom f2 s := by
  induction f1 with
  | zero =>
    intro f2 s h1 _
    have hs : s = [] := List.length_eq_zero.mp (by omega)
    subst hs
    cases f2 <;> rfl
  | succ f1 ih =>
    intro f2 s h1 h2
    cases s with
    | nil => cases f2 <;> rfl
    | cons s0 t =>
      cases f2 with
      | zero => simp at h2
      | succ f2 =>
        have hd := (DecodeRuneInString_spec s0 t).2.1
        simp only [runesFrom]
        congr 1
        apply ih
        · simp only [List.length_drop, List.length_cons] at h1 ⊢; omega
        · simp only [List.length_drop, List.length_cons] at h2 ⊢; omega

theorem runes_cons (s0 : Nat) (t : List Nat) :
    runes (s0 :: t) = (DecodeRuneInString (s0 :: t)).1 ::
      runes ((s0 :: t).drop (DecodeRuneInString (s0 :: t)).2) := by
  have hd := (DecodeRuneInString_spec s0 t).2.1
  simp only [runes, List.length_cons, runesFrom]
  congr 1
  apply runesFrom_fuel
  · simp only [List.length_drop, List.length_cons]; omega
  · exact le_refl _

theorem runes_nil : runes [] = [] := rfl

theorem runes_AppendRune (r : Nat) (h : ValidRune r) (rest : List Nat) :
    runes (AppendRune [] r ++ rest) = r :: runes rest := by
  have hpos := AppendRune_length_pos r
  have hdec := DecodeRuneInString_AppendRune r h rest
  cases hs : AppendRune [] r ++ rest with
  | nil =>
    have : (AppendRune [] r ++ rest).length = 0 := by rw [hs]; rfl
    simp only [List.length_append] at this
    omega
  | cons s0 t =>
    rw [runes_cons, ← hs, hdec]
    simp

theorem runes_valid (s : List Nat) : ∀ r ∈ runes s, ValidRune r := by
  have key : ∀ (fuel : Nat) (s : List Nat), ∀ r ∈ runesFrom fuel s, ValidRune r := by
    intro fuel
    induction fuel with
    | zero => intro s r hr; simp [runesFrom] at hr
    | succ fuel ih =>
      intro s r hr
      cases s with
      | nil => simp [runesFrom] at hr
      | cons s0 t =>
        simp only [runesFrom, List.mem_cons] at hr
        rcases hr with rfl | hr
        · exact (DecodeRuneInString_spec s0 t).1
        · exact ih _ r hr
  exact key _ s

theorem runes_encodeRunes (rs : List Nat) (h : ∀ r ∈ rs, ValidRune r) :
    runes (encodeRunes rs) = rs := by
  induction rs with
  | nil => rfl
  | cons r rs ih =>
    simp only [encodeRunes]
    rw [runes_AppendRune r (h r (List.mem_cons_self _ _)), ih]
    intro x hx
    exact h x (List.mem_cons_of_mem _ hx)

theorem encodeRunes_append (as bs : List Nat) :
    encodeRunes (as ++ bs) = encodeRunes as ++ encodeRunes bs := by
  induction as with
  | nil => rfl
  | cons a as ih => simp [encodeRunes, ih]

/-! ## The loop of `random` -/

theorem bytes_four_ok {e : Entropy} {k : Nat} {d : List Nat} (h : e k = .ok d) :
    bytes 4 e k = (.ok [d.getD 0 0 % 256, d.getD 1 0 % 256, d.getD 2 0 % 256, d.getD 3 0 % 256],
      k + 1) := by
  simp only [bytes, h]
  rfl

theorem bytes_error {e : Entropy} {k : Nat} {err : GoError} (length : Nat) (h : e k = .error err) :
    bytes length e k = (.error (.entropy err), k + 1) := by
  simp only [bytes, h]

theorem randomLoop_zero (cr : List Nat) (N : Nat) (e : Entropy) (buffer : List Nat) (k : Nat) :
    randomLoop cr N e 0 buffer k = (.ok buffer, k) := rfl

theorem randomLoop_succ_error {cr : List Nat} {N : Nat} {e : Entropy} {k : Nat} {err : GoError}
    (n : Nat) (buffer : List Nat) (h : e k = .error err) :
    randomLoop cr N e (n + 1) buffer k = (.error (.entropy err), k + 1) := by
  simp only [randomLoop, bytes_error 4 h]

theorem randomLoop_succ_zero {cr : List Nat} {e : Entropy} {k : Nat} {d : List Nat}
    (n : Nat) (buffer : List Nat) (h : e k = .ok d) :
    randomLoop cr 0 e (n + 1) buffer k = (.error .divideByZero, k + 1) := by
  simp only [randomLoop, bytes_four_ok h, Uint32, if_true]

theorem randomLoop_succ_ok {cr : List Nat} {N : Nat} {e : Entropy} {k : Nat} {d : List Nat}
    {r : Nat} (n : Nat) (buffer : List Nat) (h : e k = .ok d) (hN : N ≠ 0)
    (hr : cr[drawn d % N]? = some r) :
    randomLoop cr N e (n + 1) buffer k = randomLoop cr N e n (WriteRune buffer r) (k + 1) := by
  simp only [drawn] at hr
  simp only [randomLoop, bytes_four_ok h, Uint32, if_neg hN, hr]

theorem randomLoop_succ_range {cr : List Nat} {N : Nat} {e : Entropy} {k : Nat} {d : List Nat}
    (n : Nat) (buffer : List Nat) (h : e k = .ok d) (hN : N ≠ 0)
    (hr : cr[drawn d % N]? = none) :
    randomLoop cr N e (n + 1) buffer k = (.error .indexOutOfRange, k + 1) := by
  simp only [drawn] at hr
  simp only [randomLoop, bytes_four_ok h, Uint32, if_neg hN, hr]

theorem randomLoop_ok_spec (cr : List Nat) (N : Nat) (e : Entropy) (n : Nat) :
    ∀ (buffer : List Nat) (k : Nat) (s : List Nat) (k1 : Nat),
      randomLoop cr N e n buffer k = (.ok s, k1) →
      k1 = k + n ∧ (∀ j, j < n → ∃ d, e (k + j) = .ok d) ∧ (0 < n → N ≠ 0) ∧
        ∃ rs : List Nat, rs.length = n ∧ (∀ r ∈ rs, r ∈ cr) ∧ s = buffer ++ encodeRunes rs := by
  induction n with
  | zero =>
    intro buffer k s k1 h
    rw [randomLoop_zero] at h
    simp only [Prod.mk.injEq, Except.ok.injEq] at h
    obtain ⟨rfl, rfl⟩ := h
    exact ⟨rfl, fun j hj => absurd hj (Nat.not_lt_zero j), fun h0 => absurd h0 (lt_irrefl 0),
      [], rfl, fun r hr => absurd hr (List.not_mem_nil r), by simp [encodeRunes]⟩
  | succ n ih =>
    intro buffer k s k1 h
    cases hk : e k with
    | error err =>
      rw [randomLoop_succ_error n buffer hk] at h
      simp at h
    | ok d =>
      by_cases hN : N = 0
      · subst hN
        rw [randomLoop_succ_zero n buffer hk] at h
        simp at h
      · cases hr : cr[drawn d % N]? with
        | none =>
          rw [randomLoop_succ_range n buffer hk hN hr] at h
          simp at h
        | some r =>
          rw [randomLoop_succ_ok n buffer hk hN hr] at h
          obtain ⟨hk1, hreads, _, rs, hlen, hmem, hs⟩ := ih _ _ _ _ h
          refine ⟨by omega, ?_, fun _ => hN, r :: rs, by simp [hlen], ?_, ?_⟩
          · intro j hj
            cases j with
            | zero => exact ⟨d, hk⟩
            | succ j =>
              obtain ⟨d1, hd1⟩ := hreads j (by omega)
              exact ⟨d1, by rw [← hd1]; congr 1; omega⟩
          · intro x hx
            rcases List.mem_cons.mp hx with rfl | hx
            · exact List.getElem?_mem hr
            · exact hmem x hx
          · rw [hs, WriteRune_eq_append]
            simp [encodeRunes]

theorem randomLoop_returns (cr : List Nat) (N : Nat) (e : Entropy) (hN : N ≠ 0)
    (hle : N ≤ cr.length) (n : Nat) :
    ∀ (buffer : List Nat) (k : Nat), (∀ j, j < n → ∃ d, e (k + j) = .ok d) →
      ∃ s, randomLoop cr N e n buffer k = (.ok s, k + n) := by
  induction n with
  | zero =>
    intro buffer k _
    exact ⟨buffer, rfl⟩
  | succ n ih =>
    intro buffer k h
    obtain ⟨d, hd⟩ := h 0 (Nat.succ_pos n)
    rw [Nat.add_zero] at hd
    have hlt : drawn d % N < cr.length := lt_of_lt_of_le (Nat.mod_lt _ (Nat.pos_of_ne_zero hN)) hle
    have hr : cr[drawn d % N]? = some (cr[drawn d % N]) := List.getElem?_eq_getElem hlt
    rw [randomLoop_succ_ok n buffer hd hN hr]
    have h1 : ∀ j, j < n → ∃ d, e (k + 1 + j) = .ok d := by
      intro j hj
      obtain ⟨d1, hd1⟩ := h (j + 1) (by omega)
      exact ⟨d1, by rw [← hd1]; congr 1; omega⟩
    obtain ⟨s, hs⟩ := ih (WriteRune buffer (cr[drawn d % N])) (k + 1) h1
    exact ⟨s, by rw [hs]; congr 1; omega⟩

theorem randomLoop_entropy_fails (cr : List Nat) (N : Nat) (e : Entropy) (hN : N ≠ 0)
    (hle : N ≤ cr.length) (err : GoError) (j : Nat) :
    ∀ (n : Nat) (buffer : List Nat) (k : Nat), j < n → (∀ i, i < j → ∃ d, e (k + i) = .ok d) →
      e (k + j) = .error err →
      randomLoop cr N e n buffer k = (.error (.entropy err), k + j + 1) := by
  induction j with
  | zero =>
    intro n buffer k hn _ herr
    obtain ⟨m, rfl⟩ : ∃ m, n = m + 1 := ⟨n - 1, by omega⟩
    exact randomLoop_succ_error m buffer herr
  | succ j ih =>
    intro n buffer k hn hok herr
    obtain ⟨m, rfl⟩ : ∃ m, n = m + 1 := ⟨n - 1, by omega⟩
    obtain ⟨d, hd⟩ := hok 0 (Nat.succ_pos j)
    rw [Nat.add_zero] at hd
    have hlt : drawn d % N < cr.length := lt_of_lt_of_le (Nat.mod_lt _ (Nat.pos_of_ne_zero hN)) hle
    have hr : cr[drawn d % N]? = some (cr[drawn d % N]) := List.getElem?_eq_getElem hlt
    rw [randomLoop_succ_ok m buffer hd hN hr]
    have h1 : ∀ i, i < j → ∃ d, e (k + 1 + i) = .ok d := by
      intro i hi
      obtain ⟨d1, hd1⟩ := hok (i + 1) (by omega)
      exact ⟨d1, by rw [← hd1]; congr 1; omega⟩
    have h2 : e (k + 1 + j) = .error err := by rw [← herr]; congr 1; omega
    rw [ih m _ (k + 1) (by omega) h1 h2]
    congr 1
    omega

theorem random_eq (length : Nat) (charset : List Nat) (e : Entropy) :
    random length charset e =
      randomLoop (runes charset) ((runes charset).length % 2 ^ 32) e length [] 0 := by
  have h : Grow (int length) = .ok () := by
    simp only [Grow, int]
    rw [if_neg (by simp)]
  simp only [random, h]

theorem random_ok_spec {length : Nat} {charset : List Nat} {e : Entropy} {s : List Nat} {k : Nat}
    (h : random length charset e = (.ok s, k)) :
    k = length ∧ (∀ j, j < length → ∃ d, e j = .ok d) ∧
      (0 < length → (runes charset).length % 2 ^ 32 ≠ 0) ∧
      ∃ rs : List Nat, rs.length = length ∧ (∀ r ∈ rs, r ∈ runes charset) ∧
        s = encodeRunes rs ∧ runes s = rs := by
  rw [random_eq] at h
  obtain ⟨hk, hreads, hN, rs, hlen, hmem, hs⟩ := randomLoop_ok_spec _ _ _ _ _ _ _ _ h
  refine ⟨by omega, ?_, hN, rs, hlen, hmem, by simpa using hs, ?_⟩
  · intro j hj
    obtain ⟨d, hd⟩ := hreads j hj
    exact ⟨d, by rw [← hd]; congr 1; omega⟩
  · have hs1 : s = encodeRunes rs := by simpa using hs
    rw [hs1]
    exact runes_encodeRunes rs (fun r hr => runes_valid charset r (hmem r hr))

theorem random_returns (length : Nat) (charset : List Nat) (e : Entropy)
    (hN : (runes charset).length % 2 ^ 32 ≠ 0) (h : ∀ j, j < length → ∃ d, e j = .ok d) :
    ∃ s, random length charset e = (.ok s, length) := by
  rw [random_eq]
  have h1 : ∀ j, j < length → ∃ d, e (0 + j) = .ok d := by
    intro j hj
    obtain ⟨d, hd⟩ := h j hj
    exact ⟨d, by rw [← hd]; congr 1; omega⟩
  obtain ⟨s, hs⟩ := randomLoop_returns (runes charset) _ e hN (Nat.mod_le _ _) length [] 0 h1
  exact ⟨s, by rw [hs]; congr 1; omega⟩


theorem named_eq_random : ∀ p ∈ named, ∀ (length : Nat) (e : Entropy),
    p.1 length e = random length p.2 e := by
  intro p hp length e
  simp only [named, List.mem_cons, List.mem_singleton, List.not_mem_nil, or_false] at hp
  rcases hp with rfl | rfl | rfl | rfl | rfl | rfl | rfl | rfl | rfl | rfl | rfl <;> rfl

theorem named_length_ne_zero : ∀ p ∈ named, (runes p.2).length % 2 ^ 32 ≠ 0 := by
  intro p hp
  simp only [named, List.mem_cons, List.mem_singleton, List.not_mem_nil, or_false] at hp
  rcases hp with rfl | rfl | rfl | rfl | rfl | rfl | rfl | rfl | rfl | rfl | rfl <;> decide

theorem random_ok_count {length : Nat} {charset : List Nat} {e : Entropy} {s : List Nat}
    {k : Nat} (h : random length charset e = (.ok s, k)) : RuneCountInString s = length := by
  obtain ⟨_, _, _, rs, hlen, _, _, hrunes⟩ := random_ok_spec h
  simp only [RuneCountInString, hrunes, hlen]

theorem random_ok_mem {length : Nat} {charset : List Nat} {e : Entropy} {s : List Nat}
    {k : Nat} (h : random length charset e = (.ok s, k)) : ∀ r ∈ runes s, r ∈ runes charset := by
  intro r hr
  obtain ⟨_, _, _, rs, _, hmem, _, hrunes⟩ := random_ok_spec h
  rw [hrunes] at hr
  exact hmem r hr

theorem String_eq_random (length : Nat) (customCharset : List (List Nat)) (e : Entropy) :
    String length customCharset e = random length (customCharset.headD DefaultCharset) e := by
  cases customCharset <;> rfl

/-! ## Length and contents of the result -/

/-- C1. Whatever string `random length charset` returns has exactly `length`
code points (counted as `utf8.RuneCountInString` counts them, whatever the
byte lengths of the charset's code points), and so has what a named generator
or `String`, with or without a custom charset, returns; and `random` does
return such a string, after `length` reads, whenever the reduced charset
length is not zero and the first `length` reads of the entropy source
succeed. -/
theorem random_length (length : Nat) (charset : List Nat) (e : Entropy) :
    (∀ s k, random length charset e = (.ok s, k) → RuneCountInString s = length) ∧
    (∀ p ∈ named, ∀ s k, p.1 length e = (.ok s, k) → RuneCountInString s = length) ∧
    (∀ customCharset s k, String length customCharset e = (.ok s, k) →
      RuneCountInString s = length) ∧
    ((runes charset).length % 2 ^ 32 ≠ 0 → (∀ j, j < length → ∃ d, e j = .ok d) →
      ∃ s, random length charset e = (.ok s, length) ∧ RuneCountInString s = length) := by
  refine ⟨fun s k h => random_ok_count h, ?_, ?_, ?_⟩
  · intro p hp s k h
    rw [named_eq_random p hp] at h
    exact random_ok_count h
  · intro customCharset s k h
    rw [String_eq_random] at h
    exact random_ok_count h
  · intro hN hreads
    obtain ⟨s, hs⟩ := random_returns length charset e hN hreads
    exact ⟨s, hs, random_ok_count hs⟩

/-- C1, at a charset of code points of 1, 2, 3 and 4 bytes: three draws give
three code points in six bytes. -/
theorem random_length_witness :
    random 3 (lit "aé€😀") counting = (.ok [97, 0xC3, 0xA9, 0xE2, 0x82, 0xAC], 3) ∧
      RuneCountInString [97, 0xC3, 0xA9, 0xE2, 0x82, 0xAC] = 3 :=
  ⟨rfl, (random_length 3 (lit "aé€😀") counting).1 _ 3 rfl⟩

/-- C2. Every code point of a string that `random length charset` returns is
one of the code points of `charset`; what `String` returns for the custom
charset `"abc12345"` consists of the characters a, b, c, 1, 2, 3, 4, 5 only;
what a named generator returns consists of code points of its documented
charset only; and `random` does return such a string whenever the reduced
charset length is not zero and the first `length` reads succeed. -/
theorem random_charset (length : Nat) (charset : List Nat) (e : Entropy) :
    (∀ s k, random length charset e = (.ok s, k) → ∀ r ∈ runes s, r ∈ runes charset) ∧
    (∀ s k, String length [lit "abc12345"] e = (.ok s, k) →
      ∀ r ∈ runes s, r ∈ [97, 98, 99, 49, 50, 51, 52, 53]) ∧
    (∀ p ∈ named, ∀ s k, p.1 length e = (.ok s, k) → ∀ r ∈ runes s, r ∈ runes p.2) ∧
    ((runes charset).length % 2 ^ 32 ≠ 0 → (∀ j, j < length → ∃ d, e j = .ok d) →
      ∃ s, random length charset e = (.ok s, length) ∧ ∀ r ∈ runes s, r ∈ runes charset) := by
  refine ⟨fun s k h => random_ok_mem h, ?_, ?_, ?_⟩
  · intro s k h r hr
    have h1 : r ∈ runes (lit "abc12345") := random_ok_mem h r hr
    have h2 : runes (lit "abc12345") = [97, 98, 99, 49, 50, 51, 52, 53] := by decide
    rw [h2] at h1
    exact h1
  · intro p hp s k h
    rw [named_eq_random p hp] at h
    exact random_ok_mem h
  · intro hN hreads
    obtain ⟨s, hs⟩ := random_returns length charset e hN hreads
    exact ⟨s, hs, random_ok_mem hs⟩

/-- C2, at the custom charset of the tests: four draws give `abc1`. -/
theorem random_charset_witness :
    String 4 [lit "abc12345"] counting = (.ok (lit "abc1"), 4) ∧
      ∀ r ∈ runes (lit "abc1"), r ∈ [97, 98, 99, 49, 50, 51, 52, 53] :=
  ⟨rfl, (random_charset 4 [] counting).2.1 _ 4 rfl⟩

/-! ## Length zero, and the largest length -/

/-- C3. For every charset, the empty one included, `random 0 charset` returns
the empty string without a panic and without a call to `rand.Read`; so does
every named generator, and `String` with or without a custom charset. -/
theorem random_zero (charset : List Nat) (customCharset : List (List Nat)) (e : Entropy) :
    random 0 charset e = (.ok [], 0) ∧ random 0 [] e = (.ok [], 0) ∧
    String 0 customCharset e = (.ok [], 0) ∧ String 0 [[]] e = (.ok [], 0) ∧
    Binary 0 e = (.ok [], 0) ∧ Octal 0 e = (.ok [], 0) ∧ Decimal 0 e = (.ok [], 0) ∧
    Hexadecimal 0 e = (.ok [], 0) ∧ CapitalLetters 0 e = (.ok [], 0) ∧
    LowercaseLetters 0 e = (.ok [], 0) ∧ SpecialLetters 0 e = (.ok [], 0) ∧
    Base62 0 e = (.ok [], 0) ∧ Base64 0 e = (.ok [], 0) ∧ Letters 0 e = (.ok [], 0) ∧
    DefaultString 0 e = (.ok [], 0) := by
  have key : ∀ cs : List Nat, random 0 cs e = (.ok [], 0) := by
    intro cs
    rw [random_eq, randomLoop_zero]
  refine ⟨key charset, key [], ?_, key [], key BinaryCharset, key OctalCharset,
    key DecimalCharset, key HexadecimalCharset, key UppercaseCharset, key LowercaseCharset,
    key SpecialCharset, key Base62Charset, key Base64Charset, key AlphabetCharset,
    key DefaultCharset⟩
  rw [String_eq_random]
  exact key _

/-- C5. Without a custom charset, `String length` is `DefaultString length` on
the same entropy, that is `random length DefaultCharset`: the same string or
panic after the same reads. -/
theorem String_default (length : Nat) (e : Entropy) :
    String length [] e = DefaultString length e ∧
      String length [] e = random length DefaultCharset e :=
  ⟨rfl, rfl⟩

/-- C6. With the custom charsets `c1, c2, ..., ck`, `String length` is `String
length c1`, that is `random length c1`: the charsets after the first have no
influence on the result. -/
theorem String_first_charset (length : Nat) (c1 : List Nat) (more : List (List Nat))
    (e : Entropy) :
    String length (c1 :: more) e = String length [c1] e ∧
      String length [c1] e = random length c1 e ∧
      (∀ other : List (List Nat), String length (c1 :: more) e = String length (c1 :: other) e) :=
  ⟨rfl, rfl, fun _ => rfl⟩

/-- C7. The composite charsets are the documented concatenations, in the
documented order, of charsets with the documented contents, and every named
generator is `random` at the charset of its name. -/
theorem charsets_documented :
    AlphabetCharset = UppercaseCharset ++ LowercaseCharset ∧
    Base62Charset = DecimalCharset ++ AlphabetCharset ∧
    Base62Charset = lit "0123456789ABCDEFGHIJKLMNOPQRSTUVWXYZabcdefghijklmnopqrstuvwxyz" ∧
    Base64Charset = Base62Charset ++ lit "+/" ∧
    Base64Charset = lit "0123456789ABCDEFGHIJKLMNOPQRSTUVWXYZabcdefghijklmnopqrstuvwxyz+/" ∧
    DefaultCharset = Base62Charset ++ SpecialCharset ∧
    DefaultCharset = lit ("0123456789ABCDEFGHIJKLMNOPQRSTUVWXYZabcdefghijklmnopqrstuvwxyz"
      ++ "!@#$%^&*()-_=+[]\x7b\x7d|;:\x27,.<>?/\x60~") ∧
    BinaryCharset = [48, 49] ∧
    OctalCharset = [48, 49, 50, 51, 52, 53, 54, 55] ∧
    DecimalCharset = [48, 49, 50, 51, 52, 53, 54, 55, 56, 57] ∧
    HexadecimalCharset = DecimalCharset ++ [97, 98, 99, 100, 101, 102] ∧
    UppercaseCharset = (List.range 26).map (fun i => 65 + i) ∧
    LowercaseCharset = (List.range 26).map (fun i => 97 + i) ∧
    SpecialCharset = [33, 64, 35, 36, 37, 94, 38, 42, 40, 41, 45, 95, 61, 43, 91, 93, 123, 125,
      124, 59, 58, 39, 44, 46, 60, 62, 63, 47, 96, 126] ∧
    (∀ (length : Nat) (e : Entropy),
      Binary length e = random length BinaryCharset e ∧
      Octal length e = random length OctalCharset e ∧
      Decimal length e = random length DecimalCharset e ∧
      Hexadecimal length e = random length HexadecimalCharset e ∧
      CapitalLetters length e = random length UppercaseCharset e ∧
      LowercaseLetters length e = random length LowercaseCharset e ∧
      SpecialLetters length e = random length SpecialCharset e ∧
      Base62 length e = random length Base62Charset e ∧
      Base64 length e = random length Base64Charset e ∧
      Letters length e = random length AlphabetCharset e ∧
      DefaultString length e = random length DefaultCharset e) := by
  refine ⟨rfl, rfl, by decide, rfl, by decide, rfl, by decide, by decide, by decide, by decide,
    by decide, by decide, by decide, by decide, ?_⟩
  intro length e
  exact ⟨rfl, rfl, rfl, rfl, rfl, rfl, rfl, rfl, rfl, rfl, rfl⟩

/-! ## The index sampler -/

theorem preimages_eq (N : Nat) (hN : 0 < N) (i : Nat) (hi : i < N) :
    preimages N i = 2 ^ 32 / N + if i < 2 ^ 32 % N then 1 else 0 := by
  have h := Nat.count_modEq_card (b := 2 ^ 32) hN i
  rw [Nat.mod_eq_of_lt hi] at h
  rw [← h]
  unfold preimages
  apply le_antisymm
  · apply Nat.count_mono_left
    intro w hw
    simp only [Nat.ModEq, hw, Nat.mod_eq_of_lt hi]
  · apply Nat.count_mono_left
    intro w hw
    simp only [Nat.ModEq, Nat.mod_eq_of_lt hi] at hw
    exact hw

theorem drawn_of_word (w : Nat) (hw : w < 2 ^ 32) :
    drawn [w / 2 ^ 24, w / 2 ^ 16 % 256, w / 2 ^ 8 % 256, w % 256] = w := by
  simp only [drawn, List.getD_cons_zero, List.getD_cons_succ]
  omega

theorem drawn_wordBytes (w : Nat) (hw : w < 2 ^ 32) : drawn (wordBytes w) = w := by
  simp only [wordBytes, drawn, List.getD_cons_zero, List.getD_cons_succ]
  omega

theorem count_congr_lt (p q : Nat → Prop) [DecidablePred p] [DecidablePred q] (n : Nat)
    (h : ∀ w, w < n → (p w ↔ q w)) : Nat.count p n = Nat.count q n := by
  induction n with
  | zero => simp
  | succ n ih =>
    rw [Nat.count_succ, Nat.count_succ, ih (fun w hw => h w (Nat.lt_succ_of_lt hw))]
    have hn := h n (Nat.lt_succ_self n)
    by_cases hp : p n
    · rw [if_pos hp, if_pos (hn.mp hp)]
    · rw [if_neg hp, if_neg (fun hq => hp (hn.mpr hq))]

theorem count_mod_mul (P : Nat → Prop) [DecidablePred P] (N : Nat) (q : Nat) :
    Nat.count (fun w => P (w % N)) (q * N) = q * Nat.count P N := by
  induction q with
  | zero => simp
  | succ q ih =>
    rw [Nat.succ_mul, Nat.count_add, ih, Nat.succ_mul]
    congr 1
    apply count_congr_lt
    intro w hw
    rw [Nat.mul_add_mod_of_lt hw]

theorem count_getElem (l : List Nat) (c : Nat) :
    Nat.count (fun i => l[i]? = some c) l.length = l.count c := by
  induction l with
  | nil => simp
  | cons a l ih =>
    rw [List.length_cons, Nat.count_succ', List.count_cons]
    simp only [List.getElem?_cons_succ, List.getElem?_cons_zero, Option.some.injEq]
    rw [ih]
    congr 1
    by_cases h : a = c
    · simp [h]
    · simp [h]

theorem runes_AppendRune_nil (r : Nat) (h : ValidRune r) : runes (AppendRune [] r) = [r] := by
  have h1 := runes_AppendRune r h []
  rwa [List.append_nil, runes_nil] at h1

theorem random_one (charset : List Nat) (hN1 : 1 ≤ (runes charset).length)
    (hN2 : (runes charset).length < 2 ^ 32) (w : Nat) (hw : w < 2 ^ 32) :
    random 1 charset (always (wordBytes w)) =
      (.ok (AppendRune [] ((runes charset).getD (w % (runes charset).length) 0)), 1) := by
  have hlt : w % (runes charset).length < (runes charset).length := Nat.mod_lt _ hN1
  have hd : always (wordBytes w) 0 = .ok (wordBytes w) := rfl
  have hr : (runes charset)[drawn (wordBytes w) % (runes charset).length]? =
      some ((runes charset).getD (w % (runes charset).length) 0) := by
    rw [drawn_wordBytes w hw, List.getD_eq_getElem _ _ hlt]
    exact List.getElem?_eq_getElem hlt
  rw [random_eq, Nat.mod_eq_of_lt hN2, randomLoop_succ_ok 0 [] hd (by omega) hr, randomLoop_zero,
    WriteRune_eq_append, List.nil_append]

theorem random_one_writes (charset : List Nat) (hN1 : 1 ≤ (runes charset).length)
    (hN2 : (runes charset).length < 2 ^ 32) (w : Nat) (hw : w < 2 ^ 32) (c : Nat) :
    (random 1 charset (always (wordBytes w))).1.toOption.map runes = some [c] ↔
      (runes charset)[w % (runes charset).length]? = some c := by
  have hlt : w % (runes charset).length < (runes charset).length := Nat.mod_lt _ hN1
  have hv : ValidRune ((runes charset).getD (w % (runes charset).length) 0) := by
    rw [List.getD_eq_getElem _ _ hlt]
    exact runes_valid charset _ (List.getElem_mem _)
  rw [random_one charset hN1 hN2 w hw]
  simp only [Except.toOption, Option.map_some', runes_AppendRune_nil _ hv, Option.some.injEq,
    List.cons.injEq, and_true]
  rw [List.getD_eq_getElem _ _ hlt, List.getElem?_eq_getElem hlt, Option.some.injEq]

theorem drawsWriting_eq_count (charset : List Nat) (hN1 : 1 ≤ (runes charset).length)
    (hN2 : (runes charset).length < 2 ^ 32) (c : Nat) :
    drawsWriting (fun n e => random n charset e) c =
      Nat.count (fun w => (runes charset)[w % (runes charset).length]? = some c) (2 ^ 32) := by
  unfold drawsWriting
  apply count_congr_lt
  intro w hw
  exact random_one_writes charset hN1 hN2 w hw c

theorem drawsWriting_of_dvd (charset : List Nat) (hN1 : 1 ≤ (runes charset).length)
    (hN2 : (runes charset).length < 2 ^ 32) (hdvd : (runes charset).length ∣ 2 ^ 32) (c : Nat) :
    drawsWriting (fun n e => random n charset e) c =
      (runes charset).count c * (2 ^ 32 / (runes charset).length) := by
  rw [drawsWriting_eq_count charset hN1 hN2 c]
  obtain ⟨q, hq⟩ := hdvd
  have hdiv : 2 ^ 32 / (runes charset).length = q := by
    rw [hq]
    exact Nat.mul_div_cancel_left q hN1
  rw [hdiv]
  have h32 : 2 ^ 32 = q * (runes charset).length := by rw [hq, Nat.mul_comm]
  rw [h32, count_mod_mul (fun i => (runes charset)[i]? = some c) (runes charset).length q,
    count_getElem, Nat.mul_comm]

theorem drawsWriting_of_nodup (charset : List Nat) (hN1 : 1 ≤ (runes charset).length)
    (hN2 : (runes charset).length < 2 ^ 32) (hnd : (runes charset).Nodup) (i c : Nat)
    (hc : (runes charset)[i]? = some c) :
    drawsWriting (fun n e => random n charset e) c = preimages (runes charset).length i := by
  rw [drawsWriting_eq_count charset hN1 hN2 c]
  unfold preimages
  obtain ⟨hi, hci⟩ := List.getElem?_eq_some.mp hc
  apply count_congr_lt
  intro w _
  constructor
  · intro h
    obtain ⟨h1, h2⟩ := List.getElem?_eq_some.mp h
    exact (hnd.getElem_inj_iff).mp (h2.trans hci.symm)
  · intro h
    rw [h]
    exact hc

/-- C8, refuted as stated: on the charset `abc` of N = 3 code points a call
of length 1 returns `a`, the code point at index 0, on 1431655766 of the
`2 ^ 32` draws and `b`, the one at index 1, on 1431655765 of them, as many as
there are 32-bit values with the remainders 0 and 1 modulo 3; so the indices
are not equally likely under uniform draws. -/
theorem sampler_uniform_counterexample :
    runes (lit "abc") = [97, 98, 99] ∧
      drawsWriting (fun n e => random n (lit "abc") e) 97 = 1431655766 ∧
      drawsWriting (fun n e => random n (lit "abc") e) 98 = 1431655765 ∧
      preimages 3 0 = 1431655766 ∧ preimages 3 1 = 1431655765 ∧
      preimages 3 0 ≠ preimages 3 1 := by
  have h0 : preimages 3 0 = 1431655766 := by
    rw [preimages_eq 3 (by decide) 0 (by decide)]
    decide
  have h1 : preimages 3 1 = 1431655765 := by
    rw [preimages_eq 3 (by decide) 1 (by decide)]
    decide
  have hlen : (runes (lit "abc")).length = 3 := by decide
  have hw0 := drawsWriting_of_nodup (lit "abc") (by decide) (by decide) (by decide) 0 97
    (by decide)
  have hw1 := drawsWriting_of_nodup (lit "abc") (by decide) (by decide) (by decide) 1 98
    (by decide)
  rw [hlen] at hw0 hw1
  refine ⟨by decide, by rw [hw0, h0], by rw [hw1, h1], h0, h1, ?_⟩
  rw [h0, h1]
  decide

/-- C8, amended. For a charset of `N` code points with `1 ≤ N < 2 ^ 32`, a call
of `random` with the length 1 whose draw is the 32-bit value `w` writes the
code point at the index `w % N`, which lies in `[0, N)`.  When `N` divides
`2 ^ 32`, every index below `N` is the image of exactly `2 ^ 32 / N` of the
`2 ^ 32` draws, the same number for all, and the call returns a code point
`c` on exactly `2 ^ 32 / N` draws for each place `c` has in the charset: so
uniform bytes give a uniform index. -/
theorem sampler_uniform_amended (charset : List Nat) (hN1 : 1 ≤ (runes charset).length)
    (hN2 : (runes charset).length < 2 ^ 32) :
    (∀ w, w < 2 ^ 32 →
      w % (runes charset).length < (runes charset).length ∧
      drawn (wordBytes w) = w ∧
      random 1 charset (always (wordBytes w)) =
        (.ok (AppendRune [] ((runes charset).getD (w % (runes charset).length) 0)), 1)) ∧
    (∀ d, drawn d < 2 ^ 32) ∧
    ((runes charset).length ∣ 2 ^ 32 →
      (∀ i j, i < (runes charset).length → j < (runes charset).length →
        preimages (runes charset).length i = 2 ^ 32 / (runes charset).length ∧
        preimages (runes charset).length i = preimages (runes charset).length j) ∧
      (∀ c, drawsWriting (fun n e => random n charset e) c =
        (runes charset).count c * (2 ^ 32 / (runes charset).length)) ∧
      ((runes charset).Nodup → ∀ (i c : Nat), (runes charset)[i]? = some c →
        drawsWriting (fun n e => random n charset e) c = 2 ^ 32 / (runes charset).length)) := by
  refine ⟨?_, ?_, ?_⟩
  · intro w hw
    exact ⟨Nat.mod_lt _ hN1, drawn_wordBytes w hw, random_one charset hN1 hN2 w hw⟩
  · intro d
    simp only [drawn]
    omega
  · intro hdvd
    have hmod : 2 ^ 32 % (runes charset).length = 0 := Nat.mod_eq_zero_of_dvd hdvd
    have key : ∀ x, x < (runes charset).length →
        preimages (runes charset).length x = 2 ^ 32 / (runes charset).length := by
      intro x hx
      rw [preimages_eq _ hN1 x hx, hmod]
      simp
    refine ⟨fun i j hi hj => ⟨key i hi, by rw [key i hi, key j hj]⟩,
      drawsWriting_of_dvd charset hN1 hN2 hdvd, ?_⟩
    intro hnd i c hc
    rw [drawsWriting_of_nodup charset hN1 hN2 hnd i c hc]
    exact key i (List.getElem?_eq_some.mp hc).1

/-- C8 as amended, at the hexadecimal charset of 16 code points: the draw
4294967295 writes `f`, the code point at index 15, and `5` is written for
268435456 of the draws. -/
theorem sampler_uniform_amended_witness :
    random 1 HexadecimalCharset (always (wordBytes 4294967295)) = (.ok (lit "f"), 1) ∧
      drawsWriting (fun n e => random n HexadecimalCharset e) 53 = 268435456 :=
  ⟨((sampler_uniform_amended HexadecimalCharset (by decide) (by decide)).1 4294967295
      (by decide)).2.2,
    ((sampler_uniform_amended HexadecimalCharset (by decide) (by decide)).2.2 (by decide)).2.2
      (by decide) 5 53 (by decide)⟩

/-! ## Panics: a failing entropy source, an empty charset -/

theorem randomLoop_reads (cr : List Nat) (N : Nat) (e : Entropy) (n : Nat) :
    ∀ (buffer : List Nat) (k : Nat) (res : Except Panic (List Nat)) (k1 : Nat),
      randomLoop cr N e n buffer k = (res, k1) →
      ∀ j err, k ≤ j → j < k1 → e j = .error err → res = .error (.entropy err) ∧ k1 = j + 1 := by
  induction n with
  | zero =>
    intro buffer k res k1 h j err hkj hjk _
    rw [randomLoop_zero] at h
    simp only [Prod.mk.injEq] at h
    omega
  | succ n ih =>
    intro buffer k res k1 h j err hkj hjk herr
    cases hk : e k with
    | error err0 =>
      rw [randomLoop_succ_error n buffer hk] at h
      simp only [Prod.mk.injEq] at h
      obtain ⟨h1, h2⟩ := h
      have hj : j = k := by omega
      subst hj
      rw [hk] at herr
      simp only [Except.error.injEq] at herr
      subst herr
      exact ⟨h1.symm, h2.symm⟩
    | ok d =>
      have hne : j ≠ k := by
        intro hj
        subst hj
        rw [hk] at herr
        simp at herr
      by_cases hN : N = 0
      · subst hN
        rw [randomLoop_succ_zero n buffer hk] at h
        simp only [Prod.mk.injEq] at h
        omega
      · cases hr : cr[drawn d % N]? with
        | none =>
          rw [randomLoop_succ_range n buffer hk hN hr] at h
          simp only [Prod.mk.injEq] at h
          omega
        | some r =>
          rw [randomLoop_succ_ok n buffer hk hN hr] at h
          exact ih _ _ _ _ h j err (by omega) hjk herr

theorem random_empty_charset (n : Nat) (e : Entropy) :
    (∀ d, e 0 = .ok d → random (n + 1) [] e = (.error .divideByZero, 1)) ∧
    (∀ err, e 0 = .error err → random (n + 1) [] e = (.error (.entropy err), 1)) := by
  constructor
  · intro d hd
    rw [random_eq]
    exact randomLoop_succ_zero n [] hd
  · intro err herr
    rw [random_eq]
    exact randomLoop_succ_error n [] herr

/-- C9, refuted as stated: on the empty charset a call of length 1 aborts with
a division by zero although its one draw succeeds. -/
theorem entropy_failure_counterexample :
    counting 0 = .ok [0, 0, 0, 0] ∧ String 1 [lit ""] counting = (.error .divideByZero, 1) :=
  ⟨rfl, rfl⟩

/-- C9, amended. If a read with number below `length` fails, `random` returns
no string; a failing read that the call makes ends it at once with the panic
of that failure; with a reduced charset length that is not zero the call
makes the reads in order up to the first failing one and panics with its
error, whatever the earlier reads gave; and with a reduced charset length
that is not zero and no failing read among the first `length`, the call
returns a string of `length` code points of the charset. -/
theorem entropy_failure_amended (length : Nat) (charset : List Nat) (e : Entropy) :
    (∀ j err, j < length → e j = .error err → ∀ s k, random length charset e ≠ (.ok s, k)) ∧
    (∀ res k j err, random length charset e = (res, k) → j < k → e j = .error err →
      res = .error (.entropy err) ∧ k = j + 1) ∧
    ((runes charset).length % 2 ^ 32 ≠ 0 → ∀ j err, j < length →
      (∀ i, i < j → ∃ d, e i = .ok d) → e j = .error err →
      random length charset e = (.error (.entropy err), j + 1)) ∧
    ((runes charset).length % 2 ^ 32 ≠ 0 → (∀ j, j < length → ∃ d, e j = .ok d) →
      ∃ s, random length charset e = (.ok s, length) ∧ RuneCountInString s = length ∧
        ∀ r ∈ runes s, r ∈ runes charset) := by
  refine ⟨?_, ?_, ?_, ?_⟩
  · intro j err hj herr s k h
    obtain ⟨_, hreads, _⟩ := random_ok_spec h
    obtain ⟨d, hd⟩ := hreads j hj
    rw [hd] at herr
    simp at herr
  · intro res k j err h hjk herr
    rw [random_eq] at h
    exact randomLoop_reads _ _ _ _ _ _ _ _ h j err (Nat.zero_le j) hjk herr
  · intro hN j err hj hok herr
    rw [random_eq]
    have h1 : ∀ i, i < j → ∃ d, e (0 + i) = .ok d := by
      intro i hi
      obtain ⟨d, hd⟩ := hok i hi
      exact ⟨d, by rw [← hd]; congr 1; omega⟩
    have h2 : e (0 + j) = .error err := by rw [← herr]; congr 1; omega
    rw [randomLoop_entropy_fails (runes charset) _ e hN (Nat.mod_le _ _) err j length [] 0 hj
      h1 h2]
    congr 1
    omega
  · intro hN hreads
    obtain ⟨s, hs⟩ := random_returns length charset e hN hreads
    exact ⟨s, hs, random_ok_count hs, random_ok_mem hs⟩

/-- C9 as amended, at a source whose second read fails with `EOF`: a call of
length 3 panics with `EOF` after two reads and returns nothing of the first
draw. -/
theorem entropy_failure_amended_witness :
    random 3 (lit "ab") (failingAt 1 "EOF") = (.error (.entropy "EOF"), 2) :=
  (entropy_failure_amended 3 (lit "ab") (failingAt 1 "EOF")).2.2.1 (by decide) 1 "EOF"
    (by decide) (fun i hi => ⟨[0, 0, 0, i], by
      have h0 : i = 0 := by omega
      subst h0
      rfl⟩) rfl

/-- C10, refuted as stated: `String(2, "")` takes a draw and then divides by
zero, the panic it stops with. -/
theorem empty_charset_counterexample :
    runes (lit "") = [] ∧ String 2 [lit ""] zeros = (.error .divideByZero, 1) :=
  ⟨rfl, rfl⟩

/-- C10, amended. For a length above 0 and the empty charset, `String` (as
`random`) returns no string and does not loop: it stops in the first round of
the loop, after one read, with a panic, which is the division by zero of
`% charsetRuneLength` if the read succeeds and the failure of the read
otherwise. -/
theorem empty_charset_amended (length : Nat) (e : Entropy) (hpos : 0 < length) :
    (∀ d, e 0 = .ok d → String length [lit ""] e = (.error .divideByZero, 1)) ∧
    (∀ err, e 0 = .error err → String length [lit ""] e = (.error (.entropy err), 1)) ∧
    (∃ p, String length [lit ""] e = (.error p, 1)) ∧
    (∀ s k, String length [lit ""] e ≠ (.ok s, k)) ∧
    String length [lit ""] e = random length [] e := by
  obtain ⟨n, rfl⟩ : ∃ n, length = n + 1 := ⟨length - 1, by omega⟩
  have hS : String (n + 1) [lit ""] e = random (n + 1) [] e := rfl
  rw [hS]
  obtain ⟨hok, herr⟩ := random_empty_charset n e
  have hex : ∃ p, random (n + 1) [] e = (.error p, 1) := by
    cases h0 : e 0 with
    | error err => exact ⟨_, herr err h0⟩
    | ok d => exact ⟨_, hok d h0⟩
  refine ⟨hok, herr, hex, ?_, rfl⟩
  intro s k h
  obtain ⟨p, hp⟩ := hex
  rw [hp] at h
  simp at h

/-- C10 as amended, at length 5 with a first read that fails and with one
that succeeds. -/
theorem empty_charset_amended_witness :
    String 5 [lit ""] (failingAt 0 "EOF") = (.error (.entropy "EOF"), 1) ∧
      String 5 [lit ""] counting = (.error .divideByZero, 1) :=
  ⟨(empty_charset_amended 5 (failingAt 0 "EOF") (by decide)).2.1 "EOF" rfl,
    (empty_charset_amended 5 counting (by decide)).1 [0, 0, 0, 0] rfl⟩

/-! ## Byte length over the predefined charsets -/

theorem runes_ascii (s : List Nat) (h : ∀ b ∈ s, b < 0x80) : runes s = s := by
  induction s with
  | nil => rfl
  | cons s0 t ih =>
    have h0 : s0 < RuneSelf := h s0 (List.mem_cons_self _ _)
    have hd : DecodeRuneInString (s0 :: t) = (s0, 1) := by
      simp only [DecodeRuneInString, h0, if_true]
    rw [runes_cons, hd]
    simp only [List.drop_succ_cons, List.drop_zero]
    rw [ih (fun b hb => h b (List.mem_cons_of_mem _ hb))]

theorem encodeRunes_ascii (rs : List Nat) (h : ∀ r ∈ rs, r < 0x80) : encodeRunes rs = rs := by
  induction rs with
  | nil => rfl
  | cons r rs ih =>
    have h0 : r ≤ 0x7F := by
      have := h r (List.mem_cons_self _ _)
      omega
    simp only [encodeRunes, AppendRune, h0, if_true, List.nil_append, List.singleton_append]
    rw [ih (fun b hb => h b (List.mem_cons_of_mem _ hb))]

theorem named_ascii : ∀ p ∈ named, ∀ b ∈ p.2, b < 0x80 := by
  intro p hp
  simp only [named, List.mem_cons, List.mem_singleton, List.not_mem_nil, or_false] at hp
  rcases hp with rfl | rfl | rfl | rfl | rfl | rfl | rfl | rfl | rfl | rfl | rfl <;> decide

theorem random_ascii_length {length : Nat} {charset : List Nat} {e : Entropy} {s : List Nat}
    {k : Nat} (hc : ∀ b ∈ charset, b < 0x80) (h : random length charset e = (.ok s, k)) :
    s.length = length ∧ ∀ b ∈ s, b < 0x80 := by
  obtain ⟨_, _, _, rs, hlen, hmem, hs, _⟩ := random_ok_spec h
  rw [runes_ascii charset hc] at hmem
  have hrs : ∀ r ∈ rs, r < 0x80 := fun r hr => hc r (hmem r hr)
  rw [hs, encodeRunes_ascii rs hrs]
  exact ⟨hlen, hrs⟩

/-- C11. Every predefined charset consists of bytes below 0x80, one-byte ASCII
characters; so the string a named generator returns, and the one `String`
returns without a custom charset, has exactly `length` bytes (Go's `len`), all
of them ASCII; and every named generator does return such a string when the
first `length` reads succeed. -/
theorem predefined_byte_length (length : Nat) (e : Entropy) :
    (∀ p ∈ named, ∀ b ∈ p.2, b < 0x80) ∧
    (∀ p ∈ named, ∀ s k, p.1 length e = (.ok s, k) → s.length = length) ∧
    (∀ s k, String length [] e = (.ok s, k) → s.length = length) ∧
    ((∀ j, j < length → ∃ d, e j = .ok d) →
      ∀ p ∈ named, ∃ s, p.1 length e = (.ok s, length) ∧ s.length = length) := by
  refine ⟨named_ascii, ?_, ?_, ?_⟩
  · intro p hp s k h
    rw [named_eq_random p hp] at h
    exact (random_ascii_length (named_ascii p hp) h).1
  · intro s k h
    have hd : ∀ b ∈ DefaultCharset, b < 0x80 :=
      named_ascii (DefaultString, DefaultCharset) (by simp [named])
    exact (random_ascii_length hd h).1
  · intro hreads p hp
    rw [named_eq_random p hp]
    obtain ⟨s, hs⟩ := random_returns length p.2 e (named_length_ne_zero p hp) hreads
    exact ⟨s, hs, (random_ascii_length (named_ascii p hp) hs).1⟩

/-- C11, at `Base64` and length 4: the draws 0, 1, 2, 3 give the four bytes of
`0123`. -/
theorem predefined_byte_length_witness :
    Base64 4 counting = (.ok (lit "0123"), 4) ∧ (lit "0123").length = 4 :=
  ⟨rfl, (predefined_byte_length 4 counting).2.1 (Base64, Base64Charset) (by simp [named])
    (lit "0123") 4 (by rfl)⟩

/-! ## The result, draw by draw -/

theorem randomLoop_eq (cr : List Nat) (N : Nat) (e : Entropy) (hN : N ≠ 0)
    (hle : N ≤ cr.length) :
    ∀ (ds : List (List Nat)) (buffer : List Nat) (k : Nat),
      (∀ j d, ds[j]? = some d → e (k + j) = .ok d) →
      randomLoop cr N e ds.length buffer k =
        (.ok (buffer ++ encodeRunes (ds.map (fun d => cr.getD (drawn d % N) 0))),
          k + ds.length) := by
  intro ds
  induction ds with
  | nil =>
    intro buffer k _
    simp [randomLoop_zero, encodeRunes]
  | cons d ds ih =>
    intro buffer k h
    have hd : e k = .ok d := by
      have := h 0 d (by simp)
      rwa [Nat.add_zero] at this
    have hlt : drawn d % N < cr.length := lt_of_lt_of_le (Nat.mod_lt _ (Nat.pos_of_ne_zero hN)) hle
    have hr : cr[drawn d % N]? = some (cr[drawn d % N]) := List.getElem?_eq_getElem hlt
    have hg : cr.getD (drawn d % N) 0 = cr[drawn d % N] := List.getD_eq_getElem _ _ hlt
    simp only [List.length_cons]
    rw [randomLoop_succ_ok ds.length buffer hd hN hr]
    have h1 : ∀ j d1, ds[j]? = some d1 → e (k + 1 + j) = .ok d1 := by
      intro j d1 hj
      have := h (j + 1) d1 (by simpa using hj)
      rw [← this]
      congr 1
      omega
    rw [ih (WriteRune buffer (cr[drawn d % N])) (k + 1) h1, WriteRune_eq_append]
    simp only [List.map_cons, encodeRunes, hg, List.append_assoc]
    congr 1
    omega

theorem drawn_eq_specIndex (N : Nat) (b : List Nat) (h4 : b.length = 4)
    (hb : ∀ x ∈ b, x < 256) : drawn b % N = specIndex N b := by
  match b, h4 with
  | [b0, b1, b2, b3], _ =>
    have h0 : b0 < 256 := hb b0 (by simp)
    have h1 : b1 < 256 := hb b1 (by simp)
    have h2 : b2 < 256 := hb b2 (by simp)
    have h3 : b3 < 256 := hb b3 (by simp)
    simp only [drawn, specIndex, List.getD_cons_zero, List.getD_cons_succ]
    congr 1
    omega

theorem runes_bigCharset : runes bigCharset = bigCharset := by
  apply runes_ascii
  intro b hb
  simp only [bigCharset, List.mem_cons, List.mem_replicate] at hb
  rcases hb with rfl | ⟨_, rfl⟩ <;> decide

theorem bigCharset_length : bigCharset.length = 2 ^ 32 + 1 := by
  rw [bigCharset, List.length_cons, List.length_replicate]

/-- C12, refuted as stated: for a charset of `2 ^ 32 + 1` code points, `a`
followed by `b`s, and the draw 0, 0, 0, 1 the specification gives the code
point at index `1 mod (2 ^ 32 + 1) = 1`, a `b`, while `random` reduces the
draw modulo `uint32(2 ^ 32 + 1) = 1` and returns the `a` at index 0. -/
theorem random_spec_counterexample :
    (runes bigCharset).length = 2 ^ 32 + 1 ∧
      specRunes (runes bigCharset) [[0, 0, 0, 1]] = [98] ∧
      random 1 bigCharset ones = (.ok [97], 1) ∧
      runes [97] = [97] := by
  have hlen : (runes bigCharset).length = 2 ^ 32 + 1 := by
    rw [runes_bigCharset, bigCharset_length]
  refine ⟨hlen, ?_, ?_, rfl⟩
  · rw [runes_bigCharset]
    simp only [specRunes, List.map_cons, List.map_nil, bigCharset_length]
    have hi : specIndex (2 ^ 32 + 1) [0, 0, 0, 1] = 1 := by decide
    rw [hi]
    have hg : bigCharset.getD 1 0 = 98 := by
      rw [bigCharset, List.getD_cons_succ, List.getD_eq_getElem?_getD,
        List.getElem?_replicate_of_lt (by norm_num)]
      rfl
    rw [hg]
  · rw [random_eq, hlen]
    have hN : (2 ^ 32 + 1) % 2 ^ 32 = 1 := by norm_num
    rw [hN]
    have hd : ones 0 = .ok [0, 0, 0, 1] := rfl
    have hr : (runes bigCharset)[drawn [0, 0, 0, 1] % 1]? = some 97 := by
      rw [Nat.mod_one, runes_bigCharset, bigCharset, List.getElem?_cons_zero]
    rw [randomLoop_succ_ok 0 [] hd (by decide) hr, randomLoop_zero]
    rfl

/-- C12, amended. For a charset of `N` code points with `1 ≤ N < 2 ^ 32` and a
sequence of `n` draws of four bytes, on every entropy source that answers
its first `n` calls with these draws `random n charset` makes exactly `n`
calls to `rand.Read` and returns the string whose code points are, in order,
the code points of the charset (not its bytes) at the indices
`(b0*2^24 + b1*2^16 + b2*2^8 + b3) mod N` of the draws. -/
theorem random_spec (charset : List Nat) (draws : List (List Nat)) (e : Entropy)
    (hN1 : 1 ≤ (runes charset).length) (hN2 : (runes charset).length < 2 ^ 32)
    (hb : ∀ b ∈ draws, b.length = 4 ∧ ∀ x ∈ b, x < 256)
    (he : ∀ (k : Nat) (b : List Nat), draws[k]? = some b → e k = .ok b) :
    random draws.length charset e =
      (.ok (encodeRunes (specRunes (runes charset) draws)), draws.length) ∧
    runes (encodeRunes (specRunes (runes charset) draws)) = specRunes (runes charset) draws ∧
    (specRunes (runes charset) draws).length = draws.length ∧
    (∀ (k : Nat) (b : List Nat), draws[k]? = some b →
      (specRunes (runes charset) draws)[k]? =
        (runes charset)[specIndex (runes charset).length b]?) := by
  have hmod : (runes charset).length % 2 ^ 32 = (runes charset).length := Nat.mod_eq_of_lt hN2
  have hmap : draws.map (fun d => (runes charset).getD (drawn d % (runes charset).length) 0)
      = specRunes (runes charset) draws := by
    simp only [specRunes]
    apply List.map_congr_left
    intro b hbm
    rw [drawn_eq_specIndex _ b (hb b hbm).1 (hb b hbm).2]
  have hidx : ∀ b, specIndex (runes charset).length b < (runes charset).length :=
    fun b => Nat.mod_lt _ hN1
  have hvalid : ∀ r ∈ specRunes (runes charset) draws, ValidRune r := by
    intro r hr
    simp only [specRunes, List.mem_map] at hr
    obtain ⟨b, _, rfl⟩ := hr
    rw [List.getD_eq_getElem _ _ (hidx b)]
    exact runes_valid charset _ (List.getElem_mem _)
  refine ⟨?_, runes_encodeRunes _ hvalid, by simp [specRunes], ?_⟩
  · rw [random_eq, hmod]
    have he0 : ∀ j d, draws[j]? = some d → e (0 + j) = .ok d := by
      intro j d hj
      rw [Nat.zero_add]
      exact he j d hj
    rw [randomLoop_eq (runes charset) _ e (by omega) (le_refl _) draws [] 0 he0, hmap]
    simp
  · intro k b hk
    simp only [specRunes, List.getElem?_map, hk, Option.map_some']
    rw [List.getD_eq_getElem _ _ (hidx b), List.getElem?_eq_getElem (hidx b)]

/-- C12 as amended, at the charset `aé€😀` and the draws 1, 3, 258: the code
points at the indices 1, 3 and `258 mod 4 = 2`. -/
theorem random_spec_witness :
    random 3 (lit "aé€😀") (ofDraws [[0, 0, 0, 1], [0, 0, 0, 3], [0, 0, 1, 2]]) =
      (.ok (lit "é😀€"), 3) ∧
    runes (lit "é😀€") = [0xE9, 0x1F600, 0x20AC] :=
  ⟨(random_spec (lit "aé€😀") [[0, 0, 0, 1], [0, 0, 0, 3], [0, 0, 1, 2]]
      (ofDraws [[0, 0, 0, 1], [0, 0, 0, 3], [0, 0, 1, 2]]) (by decide) (by decide) (by decide)
      (by
        intro k b hk
        simp only [ofDraws, hk])).1,
    rfl⟩

/-! ## The bias of the reduction modulo the charset length -/

theorem preimages_cases (N : Nat) (hN : 1 ≤ N) (i : Nat) (hi : i < N) :
    (i < 2 ^ 32 % N ∧ preimages N i = 2 ^ 32 / N + 1) ∨
      (2 ^ 32 % N ≤ i ∧ preimages N i = 2 ^ 32 / N) := by
  rw [preimages_eq N hN i hi]
  by_cases h : i < 2 ^ 32 % N
  · left
    exact ⟨h, by rw [if_pos h]⟩
  · right
    exact ⟨by omega, by rw [if_neg h]; rfl⟩

/-- C13. For `1 ≤ N ≤ 2 ^ 32` the reduction `w % N` of the 32-bit values sends
the same number of them to every index below `N` if and only if `N` divides
`2 ^ 32`; and when `N` does not divide `2 ^ 32` there are two indices below
`N` with different numbers of preimages. -/
theorem reduction_uniform_iff (N : Nat) (h1 : 1 ≤ N) (h2 : N ≤ 2 ^ 32) :
    ((∀ i j, i < N → j < N → preimages N i = preimages N j) ↔ N ∣ 2 ^ 32) ∧
    (¬ N ∣ 2 ^ 32 → ∃ i j, i < N ∧ j < N ∧ preimages N i ≠ preimages N j) := by
  have hbias : ¬ N ∣ 2 ^ 32 → ∃ i j, i < N ∧ j < N ∧ preimages N i ≠ preimages N j := by
    intro hdvd
    have hr : 2 ^ 32 % N ≠ 0 := fun h => hdvd (Nat.dvd_of_mod_eq_zero h)
    have hlt : 2 ^ 32 % N < N := Nat.mod_lt _ h1
    refine ⟨0, N - 1, by omega, by omega, ?_⟩
    rcases preimages_cases N h1 0 (by omega) with ⟨_, h0⟩ | ⟨h0, _⟩
    · rcases preimages_cases N h1 (N - 1) (by omega) with ⟨hl, _⟩ | ⟨_, hl⟩
      · omega
      · omega
    · omega
  refine ⟨⟨?_, ?_⟩, hbias⟩
  · intro hall
    by_contra hdvd
    obtain ⟨i, j, hi, hj, hne⟩ := hbias hdvd
    exact hne (hall i j hi hj)
  · intro hdvd i j hi hj
    have hmod : 2 ^ 32 % N = 0 := Nat.mod_eq_zero_of_dvd hdvd
    rcases preimages_cases N h1 i hi with ⟨hl, _⟩ | ⟨_, hci⟩
    · omega
    · rcases preimages_cases N h1 j hj with ⟨hl, _⟩ | ⟨_, hcj⟩
      · omega
      · rw [hci, hcj]

/-- C13, at the 10 code points of the decimal charset, which do not divide
`2 ^ 32`, and at the 64 of the base64 charset, which do. -/
theorem reduction_uniform_iff_witness :
    (∃ i j, i < 10 ∧ j < 10 ∧ preimages 10 i ≠ preimages 10 j) ∧
      preimages 64 0 = preimages 64 63 :=
  ⟨(reduction_uniform_iff 10 (by decide) (by decide)).2 (by decide),
    (reduction_uniform_iff 64 (by decide) (by decide)).1.mpr (by decide) 0 63 (by decide)
      (by decide)⟩

/-- C14, refuted as stated: for `N = 100` the index 0 has 42949673 preimages
and the index 99 has 42949672, so the relative bias between them is
`1 / 42949672`, which is above `100 / 2 ^ 32`. -/
theorem relative_bias_counterexample :
    preimages 100 0 = 42949673 ∧ preimages 100 99 = 42949672 ∧
      relativeBias 100 0 99 = 1 / 42949672 ∧
      (100 : ℚ) / 2 ^ 32 < relativeBias 100 0 99 := by
  have h0 : preimages 100 0 = 42949673 := by
    rw [preimages_eq 100 (by decide) 0 (by decide)]
    decide
  have h1 : preimages 100 99 = 42949672 := by
    rw [preimages_eq 100 (by decide) 99 (by decide)]
    decide
  have hb : relativeBias 100 0 99 = 1 / 42949672 := by
    simp only [relativeBias, h0, h1]
    norm_num
  refine ⟨h0, h1, hb, ?_⟩
  rw [hb]
  norm_num

/-- C14, amended. For `1 ≤ N` and indices `i, j < N` the numbers of preimages
differ by at most 1: each is `2 ^ 32 / N` or `2 ^ 32 / N + 1`, the larger one
exactly for the indices below `2 ^ 32 % N`.  So for `N ≤ 100` the
relative bias between `i` and `j` is at most `1 / 42949672`, which is below
`101 / 2 ^ 32`; it is below `100 / 2 ^ 32` for `N ≤ 99`; and the difference
relative to the ideal count `2 ^ 32 / N` is at most `100 / 2 ^ 32`. -/
theorem relative_bias_amended (N i j : Nat) (h1 : 1 ≤ N) (hi : i < N) (hj : j < N) :
    (preimages N i = 2 ^ 32 / N ∨ preimages N i = 2 ^ 32 / N + 1) ∧
    (preimages N i = 2 ^ 32 / N + 1 ↔ i < 2 ^ 32 % N) ∧
    (preimages N i ≤ preimages N j + 1 ∧ preimages N j ≤ preimages N i + 1) ∧
    (N ≤ 100 → relativeBias N i j ≤ 1 / 42949672 ∧ relativeBias N i j < 101 / 2 ^ 32) ∧
    (N ≤ 99 → relativeBias N i j < 100 / 2 ^ 32) ∧
    (N ≤ 100 →
      |(preimages N i : ℚ) - (preimages N j : ℚ)| / ((2 : ℚ) ^ 32 / (N : ℚ)) ≤ 100 / 2 ^ 32) := by
  have hci := preimages_cases N h1 i hi
  have hcj := preimages_cases N h1 j hj
  have hdiff : preimages N i ≤ preimages N j + 1 ∧ preimages N j ≤ preimages N i + 1 := by
    rcases hci with ⟨_, hci⟩ | ⟨_, hci⟩ <;> rcases hcj with ⟨_, hcj⟩ | ⟨_, hcj⟩ <;> omega
  have habs : |(preimages N i : ℚ) - (preimages N j : ℚ)| ≤ 1 := by
    rw [abs_sub_le_iff]
    constructor
    · have : (preimages N i : ℚ) ≤ (preimages N j : ℚ) + 1 := by exact_mod_cast hdiff.1
      linarith
    · have : (preimages N j : ℚ) ≤ (preimages N i : ℚ) + 1 := by exact_mod_cast hdiff.2
      linarith
  have hge : 2 ^ 32 / N ≤ preimages N j := by
    rcases hcj with ⟨_, hcj⟩ | ⟨_, hcj⟩ <;> omega
  have hbound : ∀ M q : Nat, N ≤ M → 0 < q → q ≤ 2 ^ 32 / M →
      relativeBias N i j ≤ 1 / (q : ℚ) := by
    intro M q hM hq hqM
    have hdiv : 2 ^ 32 / M ≤ 2 ^ 32 / N := Nat.div_le_div_left hM h1
    have hqj : (q : ℚ) ≤ (preimages N j : ℚ) := by exact_mod_cast (by omega : q ≤ preimages N j)
    have hq0 : (0 : ℚ) < (q : ℚ) := by exact_mod_cast hq
    simp only [relativeBias]
    exact div_le_div₀ (by norm_num) habs hq0 hqj
  refine ⟨?_, ?_, hdiff, ?_, ?_, ?_⟩
  · rcases hci with ⟨_, hci⟩ | ⟨_, hci⟩
    · exact Or.inr hci
    · exact Or.inl hci
  · rcases hci with ⟨hl, hci⟩ | ⟨hl, hci⟩
    · exact ⟨fun _ => hl, fun _ => hci⟩
    · exact ⟨fun h => by omega, fun h => by omega⟩
  · intro hN
    have hb := hbound 100 42949672 hN (by decide) (by decide)
    have hb1 : relativeBias N i j ≤ 1 / 42949672 := by simpa using hb
    exact ⟨hb1, lt_of_le_of_lt hb1 (by norm_num)⟩
  · intro hN
    have hb := hbound 99 43383508 hN (by decide) (by decide)
    have hb1 : relativeBias N i j ≤ 1 / 43383508 := by simpa using hb
    exact lt_of_le_of_lt hb1 (by norm_num)
  · intro hN
    have hNq : (0 : ℚ) < (N : ℚ) := by exact_mod_cast h1
    have hN100 : (N : ℚ) ≤ 100 := by exact_mod_cast hN
    have hpos : (0 : ℚ) < (2 : ℚ) ^ 32 / (N : ℚ) := by positivity
    rw [div_le_iff₀ hpos]
    have : (100 : ℚ) / 2 ^ 32 * ((2 : ℚ) ^ 32 / (N : ℚ)) = 100 / (N : ℚ) := by
      field_simp
    rw [this]
    have h100 : (1 : ℚ) ≤ 100 / (N : ℚ) := by
      rw [le_div_iff₀ hNq]
      linarith
    linarith

/-- C14 as amended, at `N = 100` and the indices 0 and 99: the relative bias
is at most `1 / 42949672`. -/
theorem relative_bias_amended_witness :
    preimages 100 0 ≤ preimages 100 99 + 1 ∧ relativeBias 100 0 99 ≤ 1 / 42949672 :=
  ⟨(relative_bias_amended 100 0 99 (by decide) (by decide) (by decide)).2.2.1.1,
    ((relative_bias_amended 100 0 99 (by decide) (by decide) (by decide)).2.2.2.1
      (by decide)).1⟩

/-! ## The lookup is in bounds -/

theorem randomLoop_in_bounds (cr : List Nat) (N : Nat) (e : Entropy) (hle : N ≤ cr.length)
    (n : Nat) : ∀ (buffer : List Nat) (k k1 : Nat),
      randomLoop cr N e n buffer k ≠ (.error .indexOutOfRange, k1) ∧
      randomLoop cr N e n buffer k ≠ (.error .negativeCount, k1) := by
  induction n with
  | zero =>
    intro buffer k k1
    rw [randomLoop_zero]
    simp
  | succ n ih =>
    intro buffer k k1
    cases hk : e k with
    | error err =>
      rw [randomLoop_succ_error n buffer hk]
      simp
    | ok d =>
      by_cases hN : N = 0
      · subst hN
        rw [randomLoop_succ_zero n buffer hk]
        simp
      · have hlt : drawn d % N < cr.length :=
          lt_of_lt_of_le (Nat.mod_lt _ (Nat.pos_of_ne_zero hN)) hle
        rw [randomLoop_succ_ok n buffer hk hN (List.getElem?_eq_getElem hlt)]
        exact ih _ _ _

/-- C15. For a charset of `N` code points with `1 ≤ N < 2 ^ 32` and every draw
`w` the index `w % N` that `random` computes is below `N`, the lookup
`charsetRune[index]` finds a rune, and no call of `random` stops with an
index out of range. -/
theorem index_in_bounds (charset : List Nat) (hN1 : 1 ≤ (runes charset).length)
    (hN2 : (runes charset).length < 2 ^ 32) (w : Nat) :
    (runes charset).length % 2 ^ 32 = (runes charset).length ∧
    w % (runes charset).length < (runes charset).length ∧
    (∃ r, (runes charset)[w % ((runes charset).length % 2 ^ 32)]? = some r) ∧
    (∀ (length : Nat) (e : Entropy) (k : Nat),
      random length charset e ≠ (.error .indexOutOfRange, k)) := by
  have hmod : (runes charset).length % 2 ^ 32 = (runes charset).length := Nat.mod_eq_of_lt hN2
  have hlt : w % (runes charset).length < (runes charset).length := Nat.mod_lt _ hN1
  refine ⟨hmod, hlt, ?_, ?_⟩
  · rw [hmod]
    exact ⟨_, List.getElem?_eq_getElem hlt⟩
  · intro length e k
    rw [random_eq]
    exact (randomLoop_in_bounds _ _ e (Nat.mod_le _ _) length [] 0 k).1

/-- C15, at the charset `aé€😀` of 4 code points in 10 bytes and the draw
4294967295: the index is 3 and the rune found is the last one. -/
theorem index_in_bounds_witness :
    (4294967295 : Nat) % (runes (lit "aé€😀")).length < 4 ∧
      ∃ r, (runes (lit "aé€😀"))[4294967295 % ((runes (lit "aé€😀")).length % 2 ^ 32)]?
        = some r :=
  ⟨(index_in_bounds (lit "aé€😀") (by decide) (by decide) 4294967295).2.1,
    (index_in_bounds (lit "aé€😀") (by decide) (by decide) 4294967295).2.2.1⟩

/-! ## The predefined charsets have no duplicates -/

theorem drawsWriting_named (g : Nat → Entropy → Except Panic (List Nat) × Nat)
    (charset : List Nat) (N : Nat) (hg : ∀ n e, g n e = random n charset e)
    (hnd : (runes charset).Nodup) (hlen : (runes charset).length = N) (hpos : 1 ≤ N)
    (hlt : N < 2 ^ 32) (hdvd : N ∣ 2 ^ 32) :
    ∀ c ∈ runes charset, drawsWriting g c = 2 ^ 32 / N := by
  intro c hc
  have hfun : g = fun n e => random n charset e := by
    funext n e
    exact hg n e
  subst hlen
  rw [hfun, drawsWriting_of_dvd charset hpos hlt hdvd c, List.count_eq_one_of_mem hnd hc,
    Nat.one_mul]

theorem named_nodup : ∀ p ∈ named, (runes p.2).Nodup := by
  intro p hp
  simp only [named, List.mem_cons, List.mem_singleton, List.not_mem_nil, or_false] at hp
  rcases hp with rfl | rfl | rfl | rfl | rfl | rfl | rfl | rfl | rfl | rfl | rfl <;> decide

/-- C16. The code points of every predefined charset are pairwise distinct;
the charsets have 2, 8, 10, 16, 26, 26, 30, 52, 62, 64 and 92 code points;
and the generators `Binary`, `Octal`, `Hexadecimal` and `Base64`, whose
charset sizes divide `2 ^ 32`, called with the length 1, return each of their
characters on exactly `2 ^ 32 / N` of the `2 ^ 32` draws. -/
theorem predefined_distinct :
    (∀ p ∈ named, (runes p.2).Nodup) ∧
    ((runes BinaryCharset).length = 2 ∧ (runes OctalCharset).length = 8 ∧
      (runes DecimalCharset).length = 10 ∧ (runes HexadecimalCharset).length = 16 ∧
      (runes UppercaseCharset).length = 26 ∧ (runes LowercaseCharset).length = 26 ∧
      (runes SpecialCharset).length = 30 ∧ (runes AlphabetCharset).length = 52 ∧
      (runes Base62Charset).length = 62 ∧ (runes Base64Charset).length = 64 ∧
      (runes DefaultCharset).length = 92) ∧
    (∀ c ∈ runes BinaryCharset, drawsWriting Binary c = 2147483648) ∧
    (∀ c ∈ runes OctalCharset, drawsWriting Octal c = 536870912) ∧
    (∀ c ∈ runes HexadecimalCharset, drawsWriting Hexadecimal c = 268435456) ∧
    (∀ c ∈ runes Base64Charset, drawsWriting Base64 c = 67108864) ∧
    (2 ^ 32 / 2 = 2147483648 ∧ 2 ^ 32 / 8 = 536870912 ∧ 2 ^ 32 / 16 = 268435456 ∧
      2 ^ 32 / 64 = 67108864) := by
  have hsizes : (runes BinaryCharset).length = 2 ∧ (runes OctalCharset).length = 8 ∧
      (runes DecimalCharset).length = 10 ∧ (runes HexadecimalCharset).length = 16 ∧
      (runes UppercaseCharset).length = 26 ∧ (runes LowercaseCharset).length = 26 ∧
      (runes SpecialCharset).length = 30 ∧ (runes AlphabetCharset).length = 52 ∧
      (runes Base62Charset).length = 62 ∧ (runes Base64Charset).length = 64 ∧
      (runes DefaultCharset).length = 92 := by decide
  obtain ⟨h2, h8, _, h16, _, _, _, _, _, h64, _⟩ := hsizes
  refine ⟨named_nodup, by decide, ?_, ?_, ?_, ?_, by decide⟩
  · exact drawsWriting_named Binary BinaryCharset 2 (fun _ _ => rfl)
      (named_nodup (Binary, BinaryCharset) (by simp [named])) h2
      (by decide) (by decide) (by decide)
  · exact drawsWriting_named Octal OctalCharset 8 (fun _ _ => rfl)
      (named_nodup (Octal, OctalCharset) (by simp [named])) h8
      (by decide) (by decide) (by decide)
  · exact drawsWriting_named Hexadecimal HexadecimalCharset 16 (fun _ _ => rfl)
      (named_nodup (Hexadecimal, HexadecimalCharset) (by simp [named])) h16
      (by decide) (by decide) (by decide)
  · exact drawsWriting_named Base64 Base64Charset 64 (fun _ _ => rfl)
      (named_nodup (Base64, Base64Charset) (by simp [named])) h64
      (by decide) (by decide) (by decide)

/-- C16, at the letter `f` of the hexadecimal charset: `Hexadecimal` returns
it on 268435456 draws. -/
theorem predefined_distinct_witness :
    (102 : Nat) ∈ runes HexadecimalCharset ∧ drawsWriting Hexadecimal 102 = 268435456 :=
  ⟨by decide, predefined_distinct.2.2.2.2.1 102 (by decide)⟩

/-! ## Splitting a call in two -/

theorem randomLoop_add (cr : List Nat) (N : Nat) (e : Entropy) (n : Nat) (m : Nat) :
    ∀ (buffer : List Nat) (k : Nat),
      randomLoop cr N e (m + n) buffer k =
        match randomLoop cr N e m buffer k with
        | (.ok s1, k1) => randomLoop cr N e n s1 k1
        | (.error p, k1) => (.error p, k1) := by
  induction m with
  | zero =>
    intro buffer k
    rw [Nat.zero_add, randomLoop_zero]
  | succ m ih =>
    intro buffer k
    rw [Nat.succ_add]
    cases hk : e k with
    | error err =>
      rw [randomLoop_succ_error (m + n) buffer hk, randomLoop_succ_error m buffer hk]
    | ok d =>
      by_cases hN : N = 0
      · subst hN
        rw [randomLoop_succ_zero (m + n) buffer hk, randomLoop_succ_zero m buffer hk]
      · cases hr : cr[drawn d % N]? with
        | none =>
          rw [randomLoop_succ_range (m + n) buffer hk hN hr,
            randomLoop_succ_range m buffer hk hN hr]
        | some r =>
          rw [randomLoop_succ_ok (m + n) buffer hk hN hr, randomLoop_succ_ok m buffer hk hN hr]
          exact ih _ _

theorem randomLoop_after (cr : List Nat) (N : Nat) (e : Entropy) (b1 : List Nat) (k : Nat)
    (n : Nat) : ∀ (b2 : List Nat) (k0 : Nat),
      randomLoop cr N e n (b1 ++ b2) (k + k0) =
        match randomLoop cr N (after e k) n b2 k0 with
        | (.ok s, k1) => (.ok (b1 ++ s), k + k1)
        | (.error p, k1) => (.error p, k + k1) := by
  induction n with
  | zero =>
    intro b2 k0
    rw [randomLoop_zero, randomLoop_zero]
  | succ n ih =>
    intro b2 k0
    cases hk : e (k + k0) with
    | error err =>
      have hk1 : after e k k0 = .error err := hk
      rw [randomLoop_succ_error n _ hk, randomLoop_succ_error n b2 hk1]
      rfl
    | ok d =>
      have hk1 : after e k k0 = .ok d := hk
      by_cases hN : N = 0
      · subst hN
        rw [randomLoop_succ_zero n _ hk, randomLoop_succ_zero n b2 hk1]
        rfl
      · cases hr : cr[drawn d % N]? with
        | none =>
          rw [randomLoop_succ_range n _ hk hN hr, randomLoop_succ_range n b2 hk1 hN hr]
          rfl
        | some r =>
          rw [randomLoop_succ_ok n _ hk hN hr, randomLoop_succ_ok n b2 hk1 hN hr]
          have hw : WriteRune (b1 ++ b2) r = b1 ++ WriteRune b2 r := by
            rw [WriteRune_eq_append, WriteRune_eq_append, List.append_assoc]
          rw [hw, Nat.add_assoc]
          exact ih _ _

theorem random_add_eq (m n : Nat) (charset : List Nat) (e : Entropy) :
    random (m + n) charset e =
      match random m charset e with
      | (.ok s1, k1) =>
        match random n charset (after e k1) with
        | (.ok s2, k2) => (.ok (s1 ++ s2), k1 + k2)
        | (.error p, k2) => (.error p, k1 + k2)
      | (.error p, k1) => (.error p, k1) := by
  rw [random_eq, random_eq, randomLoop_add]
  rcases hm : randomLoop (runes charset) ((runes charset).length % 2 ^ 32) e m [] 0 with
    ⟨res, k1⟩
  cases res with
  | error p => rfl
  | ok s1 =>
    simp only []
    rw [random_eq]
    have h := randomLoop_after (runes charset) ((runes charset).length % 2 ^ 32) e s1 k1 n [] 0
    rw [List.append_nil, Nat.add_zero] at h
    exact h

/-- C17. On every charset and entropy source `random (m + n)` is `random m`
followed, when it returns, by `random n` on the entropy after the reads of
the first call: the strings are concatenated, the reads added, and a panic
of either call is the panic of the whole.  So a string returned for `m + n`
is the string for `m` on the first `m` draws followed by the string for `n`
on the following `n` draws, the first being a prefix of it; and these strings
are returned when the reduced charset length is not zero and the first
`m + n` reads succeed. -/
theorem random_add (m n : Nat) (charset : List Nat) (e : Entropy) :
    (random (m + n) charset e =
      match random m charset e with
      | (.ok s1, k1) =>
        match random n charset (after e k1) with
        | (.ok s2, k2) => (.ok (s1 ++ s2), k1 + k2)
        | (.error p, k2) => (.error p, k1 + k2)
      | (.error p, k1) => (.error p, k1)) ∧
    (∀ s k, random (m + n) charset e = (.ok s, k) →
      ∃ s1 s2, random m charset e = (.ok s1, m) ∧ random n charset (after e m) = (.ok s2, n) ∧
        s = s1 ++ s2 ∧ s1 <+: s) ∧
    ((runes charset).length % 2 ^ 32 ≠ 0 → (∀ j, j < m + n → ∃ d, e j = .ok d) →
      ∃ s1 s2, random m charset e = (.ok s1, m) ∧ random n charset (after e m) = (.ok s2, n) ∧
        random (m + n) charset e = (.ok (s1 ++ s2), m + n) ∧
        RuneCountInString s1 = m ∧ RuneCountInString s2 = n) := by
  have hsplit : ∀ s k, random (m + n) charset e = (.ok s, k) →
      ∃ s1 s2, random m charset e = (.ok s1, m) ∧ random n charset (after e m) = (.ok s2, n) ∧
        s = s1 ++ s2 ∧ s1 <+: s := by
    intro s k h
    rw [random_add_eq] at h
    rcases hm : random m charset e with ⟨res1, k1⟩
    rw [hm] at h
    cases res1 with
    | error p => simp at h
    | ok s1 =>
      have hk1 : k1 = m := (random_ok_spec hm).1
      subst hk1
      simp only [] at h
      rcases hn : random n charset (after e k1) with ⟨res2, k2⟩
      rw [hn] at h
      cases res2 with
      | error p => simp at h
      | ok s2 =>
        have hk2 : k2 = n := (random_ok_spec hn).1
        subst hk2
        simp only [Prod.mk.injEq, Except.ok.injEq] at h
        exact ⟨s1, s2, rfl, rfl, h.1.symm, by rw [← h.1]; exact List.prefix_append s1 s2⟩
  refine ⟨random_add_eq m n charset e, hsplit, ?_⟩
  intro hN hreads
  obtain ⟨s, hs⟩ := random_returns (m + n) charset e hN hreads
  obtain ⟨s1, s2, h1, h2, hcat, _⟩ := hsplit s (m + n) hs
  exact ⟨s1, s2, h1, h2, by rw [hs, hcat], random_ok_count h1, random_ok_count h2⟩

/-- C17, at the hexadecimal charset: five draws give `01234`, the first two
give `01` and the following three give `234`. -/
theorem random_add_witness :
    random (2 + 3) HexadecimalCharset counting = (.ok (lit "01234"), 5) ∧
      ∃ s1 s2, random 2 HexadecimalCharset counting = (.ok s1, 2) ∧
        random 3 HexadecimalCharset (after counting 2) = (.ok s2, 3) ∧
        lit "01234" = s1 ++ s2 ∧ s1 <+: lit "01234" :=
  ⟨rfl, (random_add 2 3 HexadecimalCharset counting).2.1 (lit "01234") 5 (by rfl)⟩

/-! ## A charset of one code point -/

/-- C18. For a charset whose only code point is `c`, a string that `random`
(or `String` with that charset) returns is `length` copies of `c`, whatever
the entropy source answered; it is returned on every entropy source whose
first `length` reads succeed, so two such sources give the same result. -/
theorem single_code_point (charset : List Nat) (c : Nat) (length : Nat) (e : Entropy)
    (hc : runes charset = [c]) :
    (∀ s k, random length charset e = (.ok s, k) →
      runes s = List.replicate length c ∧ s = encodeRunes (List.replicate length c)) ∧
    (∀ s k, String length [charset] e = (.ok s, k) →
      runes s = List.replicate length c ∧ s = encodeRunes (List.replicate length c)) ∧
    ((∀ j, j < length → ∃ d, e j = .ok d) →
      random length charset e = (.ok (encodeRunes (List.replicate length c)), length) ∧
      String length [charset] e = (.ok (encodeRunes (List.replicate length c)), length)) ∧
    (∀ e2 : Entropy, (∀ j, j < length → ∃ d, e j = .ok d) →
      (∀ j, j < length → ∃ d, e2 j = .ok d) →
      random length charset e2 = random length charset e) := by
  have key : ∀ (e1 : Entropy) (s : List Nat) (k : Nat), random length charset e1 = (.ok s, k) →
      runes s = List.replicate length c ∧ s = encodeRunes (List.replicate length c) := by
    intro e1 s k h
    obtain ⟨_, _, _, rs, hlen, hmem, hs, hrunes⟩ := random_ok_spec h
    have hrs : rs = List.replicate length c := by
      rw [List.eq_replicate_iff]
      refine ⟨hlen, ?_⟩
      intro b hb
      have := hmem b hb
      rw [hc] at this
      simpa using this
    rw [hrunes, hs, hrs]
    exact ⟨rfl, rfl⟩
  have hN : (runes charset).length % 2 ^ 32 ≠ 0 := by
    rw [hc, List.length_singleton]
    decide
  have hret : ∀ e1 : Entropy, (∀ j, j < length → ∃ d, e1 j = .ok d) →
      random length charset e1 = (.ok (encodeRunes (List.replicate length c)), length) := by
    intro e1 h1
    obtain ⟨s, hs⟩ := random_returns length charset e1 hN h1
    rw [hs, (key e1 s length hs).2]
  refine ⟨key e, key e, ?_, ?_⟩
  · intro h
    exact ⟨hret e h, hret e h⟩
  · intro e2 h1 h2
    rw [hret e h1, hret e2 h2]

/-- C18, at the charset `€` and length 2: the draws 0, 1 and the draws 0, 0
both give `€€`. -/
theorem single_code_point_witness :
    random 2 (lit "€") counting = (.ok (lit "€€"), 2) ∧
      random 2 (lit "€") zeros = random 2 (lit "€") counting :=
  ⟨((single_code_point (lit "€") 0x20AC 2 counting (by decide)).2.2.1
      (fun j _ => ⟨[0, 0, 0, j], rfl⟩)).1,
    (single_code_point (lit "€") 0x20AC 2 counting (by decide)).2.2.2 zeros
      (fun j _ => ⟨[0, 0, 0, j], rfl⟩) (fun _ _ => ⟨[0, 0, 0, 0], rfl⟩)⟩

end Strrand
